import Mathlib

/-!
Verification of the parquet4seastar bit-stream utilities
(`include/parquet4seastar/bit_stream_utils.hh`) and of the writer-schema
interface (`include/parquet4seastar/writer_schema.hh`).

Machine integers are modelled as `Nat` with explicit reductions modulo
`2^32` / `2^64` wherever the C++ code relies on fixed-width overflow.
The caller-owned byte buffer is modelled as a total function `Nat → Nat`
(byte index to byte value); `memcpy` of the little-endian accumulator
becomes the `storeBytes` / `assembleBytes` / `loadBytes` functions below.
-/

namespace BitUtil

/-- `BitUtil::BytesForBits`: number of bytes needed to fit `bits` bits. -/
def BytesForBits (bits : Nat) : Nat :=
  (bits >>> 3) + (if bits &&& 7 ≠ 0 then 1 else 0)

/-- `BitUtil::TrailingBits`: the `num_bits` least-significant bits of the
64-bit value `v`. -/
def TrailingBits (v : Nat) (num_bits : Nat) : Nat :=
  if num_bits = 0 then 0
  else if num_bits ≥ 64 then v
  else ((v <<< (64 - num_bits)) % 2 ^ 64) >>> (64 - num_bits)

/-- `memcpy(buffer + o, &x, n)` with `x` a little-endian integer: byte
`o + k` becomes byte `k` of `x`, all other bytes are untouched. -/
def storeBytes (buf : Nat → Nat) (o : Nat) (x : Nat) (n : Nat) : Nat → Nat :=
  fun i => if o ≤ i ∧ i < o + n then x / 2 ^ ((i - o) * 8) % 256 else buf i

/-- The little-endian integer formed by the `n` buffer bytes starting at
offset `o` (byte `o` is least significant). -/
def assembleBytes (buf : Nat → Nat) (o : Nat) : Nat → Nat
  | 0 => 0
  | n + 1 => buf o + 256 * assembleBytes buf (o + 1) n

/-- `memcpy(&old, buf + o, n)` into a `uint64_t`: the low `n` bytes are
replaced by buffer bytes, the high `8 - n` bytes of `old` are kept
(the C++ code leaves them as they were). -/
def loadBytes (buf : Nat → Nat) (o n : Nat) (old : Nat) : Nat :=
  assembleBytes buf o n + ((old >>> (8 * n)) <<< (8 * n))

/-- State of `BitUtil::BitWriter`.  `buffer` is the caller-owned output
buffer of declared capacity `max_bytes`. -/
structure BitWriter where
  buffer : Nat → Nat
  max_bytes : Nat
  buffered_values : Nat
  byte_offset : Nat
  bit_offset : Nat

namespace BitWriter

/-- The `BitWriter(buffer, buffer_len)` constructor (it calls `Clear()`). -/
def init (buffer : Nat → Nat) (buffer_len : Nat) : BitWriter :=
  { buffer := buffer, max_bytes := buffer_len,
    buffered_values := 0, byte_offset := 0, bit_offset := 0 }

/-- `BitWriter::bytes_written`. -/
def bytes_written (w : BitWriter) : Nat :=
  w.byte_offset + BytesForBits w.bit_offset

/-- `BitWriter::PutValue`.  Returns the success flag together with the new
state.  The `assert`s of the source (`num_bits <= 32`, `v >> num_bits == 0`)
become hypotheses of the theorems below. -/
def PutValue (w : BitWriter) (v : Nat) (num_bits : Nat) : Bool × BitWriter :=
  if w.byte_offset * 8 + w.bit_offset + num_bits > w.max_bytes * 8 then
    (false, w)
  else
    let buffered := w.buffered_values ||| ((v <<< w.bit_offset) % 2 ^ 64)
    let bit_offset := w.bit_offset + num_bits
    if bit_offset ≥ 64 then
      let buffer := storeBytes w.buffer w.byte_offset buffered 8
      let byte_offset := w.byte_offset + 8
      let bit_offset := bit_offset - 64
      let buffered := (v >>> (num_bits - bit_offset)) % 2 ^ 64
      (true, { w with buffer := buffer, buffered_values := buffered,
                      byte_offset := byte_offset, bit_offset := bit_offset })
    else
      (true, { w with buffered_values := buffered, bit_offset := bit_offset })

/-- `BitWriter::Flush`. -/
def Flush (w : BitWriter) (align : Bool) : BitWriter :=
  let num_bytes := BytesForBits w.bit_offset
  let buffer := storeBytes w.buffer w.byte_offset w.buffered_values num_bytes
  if align then
    { w with buffer := buffer, buffered_values := 0,
             byte_offset := w.byte_offset + num_bytes, bit_offset := 0 }
  else
    { w with buffer := buffer }

/-- `BitWriter::GetNextBytePtr`: flush-aligned, then hand out the offset of
the next `num_bytes` bytes (`none` models the `NULL` return). -/
def GetNextBytePtr (w : BitWriter) (num_bytes : Nat) : Option Nat × BitWriter :=
  let w := Flush w true
  if w.byte_offset + num_bytes > w.max_bytes then (none, w)
  else (some w.byte_offset, { w with byte_offset := w.byte_offset + num_bytes })

/-- `BitWriter::PutAligned<T>`: `val` is copied little-endian into the
`num_bytes` bytes at the handed-out offset. -/
def PutAligned (w : BitWriter) (val : Nat) (num_bytes : Nat) : Bool × BitWriter :=
  match GetNextBytePtr w num_bytes with
  | (none, w) => (false, w)
  | (some ptr, w) => (true, { w with buffer := storeBytes w.buffer ptr val num_bytes })

/-- The loop of `BitWriter::PutVlqInt` (`v` is a `uint32_t`; `result`
accumulates the `result &= ...` conjunction of the source). -/
def PutVlqIntAux (w : BitWriter) (v : Nat) (result : Bool) : Bool × BitWriter :=
  if h : v &&& 0xFFFFFF80 ≠ 0 then
    let step := PutAligned w ((v &&& 0x7F) ||| 0x80) 1
    PutVlqIntAux step.2 (v >>> 7) (result && step.1)
  else
    let step := PutAligned w (v &&& 0x7F) 1
    (result && step.1, step.2)
  termination_by v
  decreasing_by
    have h128 : 128 ≤ v := by
      by_contra hlt
      apply h
      have : v % 2 ^ 32 = v := Nat.mod_eq_of_lt (by omega)
      calc v &&& 0xFFFFFF80
          = v &&& 0xFFFFFF80 := rfl
        _ = 0 := by
            apply Nat.eq_of_testBit_eq
            intro j
            rw [Nat.testBit_land, Nat.zero_testBit]
            by_cases hj : j < 7
            · have : (0xFFFFFF80 : Nat).testBit j = false := by
                interval_cases j <;> decide
              simp [this]
            · have : v.testBit j = false :=
                Nat.testBit_lt_two_pow (by
                  calc v < 128 := by omega
                    _ = 2 ^ 7 := by norm_num
                    _ ≤ 2 ^ j := Nat.pow_le_pow_right (by norm_num) (by omega))
              simp [this]
    calc v >>> 7 = v / 2 ^ 7 := Nat.shiftRight_eq_div_pow v 7
      _ < v := Nat.div_lt_self (by omega) (by norm_num)

/-- `BitWriter::PutVlqInt`. -/
def PutVlqInt (w : BitWriter) (v : Nat) : Bool × BitWriter :=
  PutVlqIntAux w v true

/-- Two's-complement `uint32_t` view of an `int32_t` value. -/
def toUInt32 (v : Int) : Nat := (v % 2 ^ 32).toNat

/-- `BitWriter::PutZigZagVlqInt`: `PutVlqInt((u_v << 1) ^ (v >> 31))` where
`u_v = static_cast<uint32_t>(v)` and `v >> 31` is the arithmetic shift
(floor division by `2^31`) truncated to `uint32_t`. -/
def PutZigZagVlqInt (w : BitWriter) (v : Int) : Bool × BitWriter :=
  let u_v := toUInt32 v
  let sh := toUInt32 (Int.fdiv v (2 ^ 31))
  PutVlqInt w (((u_v <<< 1) % 2 ^ 32) ^^^ sh)

end BitWriter

/-- State of `BitUtil::BitReader`. -/
structure BitReader where
  buffer : Nat → Nat
  max_bytes : Nat
  buffered_values : Nat
  byte_offset : Nat
  bit_offset : Nat

namespace BitReader

/-- The `BitReader(buffer, buffer_len)` constructor: prime the 64-bit window
with the first `min 8 buffer_len` bytes.  The C++ leaves the remaining high
bytes of `buffered_values_` indeterminate; they are modelled as zero (no
defined read ever depends on them). -/
def init (buffer : Nat → Nat) (buffer_len : Nat) : BitReader :=
  let num_bytes := min 8 buffer_len
  { buffer := buffer, max_bytes := buffer_len,
    buffered_values := loadBytes buffer 0 num_bytes 0,
    byte_offset := 0, bit_offset := 0 }

/-- `BitReader::kMaxVlqByteLength`. -/
def kMaxVlqByteLength : Nat := 5

/-- `BitReader::GetAligned<T>` with `sizeT = sizeof(T)`.  On success the
value is the little-endian assembly of the `num_bytes` bytes read
(`v` was zero-initialised at the call sites that matter). -/
def GetAligned (r : BitReader) (num_bytes : Nat) (sizeT : Nat) :
    Option Nat × BitReader :=
  if num_bytes > sizeT then (none, r)
  else
    let bytes_read := BytesForBits r.bit_offset
    if r.byte_offset + bytes_read + num_bytes > r.max_bytes then (none, r)
    else
      let byte_offset := r.byte_offset + bytes_read
      let v := assembleBytes r.buffer byte_offset num_bytes
      let byte_offset := byte_offset + num_bytes
      let bytes_remaining := r.max_bytes - byte_offset
      let buffered :=
        if bytes_remaining ≥ 8 then loadBytes r.buffer byte_offset 8 r.buffered_values
        else loadBytes r.buffer byte_offset bytes_remaining r.buffered_values
      (some v, { r with byte_offset := byte_offset, bit_offset := 0,
                        buffered_values := buffered })

/-- The `for (int i = 0; i < kMaxVlqByteLength; i++)` loop of
`BitReader::GetVlqInt`; `tmp` is the `uint32_t` accumulator. -/
def GetVlqIntLoop (r : BitReader) (tmp : Nat) (i : Nat) : Option Nat × BitReader :=
  if hi : i < kMaxVlqByteLength then
    match GetAligned r 1 1 with
    | (none, r) => (none, r)
    | (some byte, r) =>
      let tmp := tmp ||| (((byte &&& 0x7F) <<< (7 * i)) % 2 ^ 32)
      if byte &&& 0x80 = 0 then (some tmp, r)
      else GetVlqIntLoop r tmp (i + 1)
  else (none, r)
  termination_by kMaxVlqByteLength - i
  decreasing_by omega

/-- `BitReader::GetVlqInt`. -/
def GetVlqInt (r : BitReader) : Option Nat × BitReader :=
  GetVlqIntLoop r 0 0

/-- The signed value of a `uint32_t` bit pattern reinterpreted as
`int32_t`. -/
def toInt32 (s : Nat) : Int :=
  if s < 2 ^ 31 then (s : Int) else (s : Int) - 2 ^ 32

/-- `BitReader::GetZigZagVlqInt`:
`*v = (u >> 1) ^ -(static_cast<int32_t>(u & 1))`. -/
def GetZigZagVlqInt (r : BitReader) : Option Int × BitReader :=
  match GetVlqInt r with
  | (none, r) => (none, r)
  | (some u, r) =>
    let mask := ((-(Int.ofNat (u &&& 1))) % 2 ^ 32).toNat
    (some (toInt32 ((u >>> 1) ^^^ mask)), r)

end BitReader

/-- Bit `p` of the byte stream: bit `p % 8` of byte `p / 8` (LSB-first
within a byte, little-endian across bytes). -/
def streamBit (buf : Nat → Nat) (p : Nat) : Nat :=
  (buf (p / 8) >>> (p % 8)) &&& 1

/-- The `n` stream bits starting at bit position `pos`, as a little-endian
integer. -/
def bitsAt (buf : Nat → Nat) (pos : Nat) : Nat → Nat
  | 0 => 0
  | n + 1 => streamBit buf pos + 2 * bitsAt buf (pos + 1) n

namespace internal

/-- Modelled from the spec: `internal::unpack32` of `bpacking.hh` (that
header is not part of the sources here).  Per §4.1/§9 of the spec it is the
bulk path that "unpacks 32 values of the same width at once" for full
groups of 32 values, branch-free per width; residual values are left to the
one-at-a-time fallback.  So it unpacks the largest multiple of 32 that is
`≤ batch_size` values of `num_bits` bits each, LSB-first little-endian,
from the bytes starting at `byte_offset`, and returns them together with
the number unpacked. -/
def unpack32 (buf : Nat → Nat) (byte_offset : Nat) (batch_size : Nat)
    (num_bits : Nat) : List Nat × Nat :=
  let n := 32 * (batch_size / 32)
  ((List.range n).map (fun j => bitsAt buf (byte_offset * 8 + j * num_bits) num_bits), n)

end internal

namespace detail

/-- `detail::GetValue_<T>` with `sizeT = sizeof(T)`: reads `num_bits` bits
from the 64-bit window, refilling the window when crossing it.  Returns
`(value, bit_offset, byte_offset, buffered_values)`. -/
def GetValue_ (num_bits : Nat) (max_bytes : Nat) (buf : Nat → Nat)
    (bit_offset byte_offset buffered_values : Nat) (sizeT : Nat) :
    Nat × Nat × Nat × Nat :=
  let v := (BitUtil.TrailingBits buffered_values (bit_offset + num_bits) >>> bit_offset)
            % 2 ^ (8 * sizeT)
  let bit_offset := bit_offset + num_bits
  if bit_offset ≥ 64 then
    let byte_offset := byte_offset + 8
    let bit_offset := bit_offset - 64
    let bytes_remaining := max_bytes - byte_offset
    let buffered_values :=
      if bytes_remaining ≥ 8 then loadBytes buf byte_offset 8 buffered_values
      else loadBytes buf byte_offset bytes_remaining buffered_values
    let v := v ||| (((BitUtil.TrailingBits buffered_values bit_offset
                       <<< (num_bits - bit_offset)) % 2 ^ 64) % 2 ^ (8 * sizeT))
    (v, bit_offset, byte_offset, buffered_values)
  else
    (v, bit_offset, byte_offset, buffered_values)

end detail

namespace BitReader

/-- The head loop of `BitReader::GetBatch`: unaligned values read one at a
time while `i < batch_size && bit_offset != 0`.  `k` is the number of slots
still to fill. -/
def headLoop (num_bits max_bytes : Nat) (buf : Nat → Nat) (sizeT : Nat) :
    Nat → Nat → Nat → Nat → List Nat × Nat × Nat × Nat
  | 0, bit_offset, byte_offset, buffered_values =>
      ([], bit_offset, byte_offset, buffered_values)
  | k + 1, bit_offset, byte_offset, buffered_values =>
      if bit_offset = 0 then ([], bit_offset, byte_offset, buffered_values)
      else
        let s := detail.GetValue_ num_bits max_bytes buf bit_offset byte_offset
                   buffered_values sizeT
        let rest := headLoop num_bits max_bytes buf sizeT k s.2.1 s.2.2.1 s.2.2.2
        (s.1 :: rest.1, rest.2)

/-- The trailing loop of `BitReader::GetBatch`: the remaining `k` slots are
filled one value at a time. -/
def tailLoop (num_bits max_bytes : Nat) (buf : Nat → Nat) (sizeT : Nat) :
    Nat → Nat → Nat → Nat → List Nat × Nat × Nat × Nat
  | 0, bit_offset, byte_offset, buffered_values =>
      ([], bit_offset, byte_offset, buffered_values)
  | k + 1, bit_offset, byte_offset, buffered_values =>
      let s := detail.GetValue_ num_bits max_bytes buf bit_offset byte_offset
                 buffered_values sizeT
      let rest := tailLoop num_bits max_bytes buf sizeT k s.2.1 s.2.2.1 s.2.2.2
      (s.1 :: rest.1, rest.2)

/-- The `while (i < batch_size)` bulk loop of the `sizeof(T) != 4` branch of
`GetBatch`: repeatedly unpack through the 1024-value scratch buffer, casting
each unpacked `uint32_t` to `T`, until `unpack32` makes no progress.
Returns the values and the new byte offset. -/
def packLoop (buf : Nat → Nat) (num_bits sizeT : Nat) :
    Nat → Nat → List Nat × Nat
  | rem, byte_offset =>
    if h : rem = 0 then ([], byte_offset)
    else
      let unpack_size := min 1024 rem
      let u := internal.unpack32 buf byte_offset unpack_size num_bits
      if h2 : u.2 = 0 then ([], byte_offset)
      else
        let vals := u.1.map (· % 2 ^ (8 * sizeT))
        let byte_offset := byte_offset + u.2 * num_bits / 8
        let rest := packLoop buf num_bits sizeT (rem - u.2) byte_offset
        (vals ++ rest.1, rest.2)
  termination_by rem => rem
  decreasing_by
    unfold u at h2
    simp only [internal.unpack32] at h2 ⊢
    have h1 : min 1024 rem / 32 * 32 ≤ min 1024 rem := Nat.div_mul_le_self _ _
    have h3 : min 1024 rem ≤ rem := Nat.min_le_right _ _
    omega

/-- `BitReader::GetBatch<T>` with `sizeT = sizeof(T)`.  Returns the value
returned by the C++ function (the clamped batch size), the values written
to the output array, and the new reader state. -/
def GetBatch (r : BitReader) (num_bits : Nat) (batch_size : Nat) (sizeT : Nat) :
    Nat × List Nat × BitReader :=
  let bit_offset := r.bit_offset
  let byte_offset := r.byte_offset
  let buffered_values := r.buffered_values
  let max_bytes := r.max_bytes
  let buf := r.buffer
  let needed_bits := num_bits * batch_size
  let remaining_bits := (max_bytes - byte_offset) * 8 - bit_offset
  let batch_size := if remaining_bits < needed_bits
                    then remaining_bits / num_bits else batch_size
  let h := headLoop num_bits max_bytes buf sizeT batch_size bit_offset
             byte_offset buffered_values
  let bit_offset := h.2.1
  let byte_offset := h.2.2.1
  let buffered_values := h.2.2.2
  let rem := batch_size - h.1.length
  let p : List Nat × Nat :=
    if sizeT = 4 then
      let u := internal.unpack32 buf byte_offset rem num_bits
      (u.1, byte_offset + u.2 * num_bits / 8)
    else
      packLoop buf num_bits sizeT rem byte_offset
  let byte_offset := p.2
  let bytes_remaining := max_bytes - byte_offset
  let buffered_values :=
    if bytes_remaining ≥ 8 then loadBytes buf byte_offset 8 buffered_values
    else loadBytes buf byte_offset bytes_remaining buffered_values
  let rem := rem - p.1.length
  let t := tailLoop num_bits max_bytes buf sizeT rem bit_offset byte_offset
             buffered_values
  (batch_size, h.1 ++ p.1 ++ t.1,
   { r with bit_offset := t.2.1, byte_offset := t.2.2.1, buffered_values := t.2.2.2 })

/-- `BitReader::GetValue<T>`: `GetBatch(num_bits, v, 1) == 1`. -/
def GetValue (r : BitReader) (num_bits : Nat) (sizeT : Nat) :
    Option Nat × BitReader :=
  let b := GetBatch r num_bits 1 sizeT
  if b.1 = 1 then (some b.2.1.headI, b.2.2) else (none, b.2.2)

end BitReader

/-! ### Arithmetic toolkit -/

/-! ### VLQ encoding: the byte list produced by `PutVlqInt` -/

/-- The byte sequence emitted by the loop of `BitWriter::PutVlqInt`. -/
def vlqEncode (v : Nat) : List Nat :=
  if h : v &&& 0xFFFFFF80 ≠ 0 then ((v &&& 0x7F) ||| 0x80) :: vlqEncode (v >>> 7)
  else [v &&& 0x7F]
  termination_by v
  decreasing_by
    have h128 : 128 ≤ v := by
      by_contra hlt
      apply h
      apply Nat.eq_of_testBit_eq
      intro j
      rw [Nat.testBit_land, Nat.zero_testBit]
      by_cases hj : j < 7
      · have hm : (0xFFFFFF80 : Nat).testBit j = false := by
          interval_cases j <;> decide
        simp [hm]
      · have hv : v.testBit j = false :=
          Nat.testBit_lt_two_pow (by
            calc v < 128 := by omega
              _ = 2 ^ 7 := by norm_num
              _ ≤ 2 ^ j := Nat.pow_le_pow_right (by norm_num) (by omega))
        simp [hv]
    calc v >>> 7 = v / 2 ^ 7 := Nat.shiftRight_eq_div_pow v 7
      _ < v := Nat.div_lt_self (by omega) (by norm_num)

/-- Writing a list of bytes one `storeBytes`-of-one at a time, as the
repeated `PutAligned<uint8_t>(·, 1)` calls of `PutVlqInt` do. -/
def writeBytesList (buf : Nat → Nat) (o : Nat) : List Nat → (Nat → Nat)
  | [] => buf
  | b :: bs => writeBytesList (storeBytes buf o b 1) (o + 1) bs

/-- The buffer holds exactly the bytes `bs` starting at offset `o`. -/
def MatchesAt (buf : Nat → Nat) (o : Nat) : List Nat → Prop
  | [] => True
  | b :: bs => buf o = b ∧ MatchesAt buf (o + 1) bs

attribute [ext] BitWriter BitReader

/-! ### Claim C10: a 5-byte decode truncates modulo `2^32` -/

/-- The accumulator built by the `GetVlqInt` loop over `m` continuation
bytes followed by one terminating byte, starting at loop index `i`. -/
def vlqAccum (buf : Nat → Nat) (p : Nat) (i : Nat) (tmp : Nat) : Nat → Nat
  | 0 => tmp ||| (((buf p &&& 0x7F) <<< (7 * i)) % 2 ^ 32)
  | m + 1 => vlqAccum buf (p + 1) (i + 1)
      (tmp ||| (((buf p &&& 0x7F) <<< (7 * i)) % 2 ^ 32)) m

/-! ### Claim C1: bit-stream round trip.  Stream model and byte lemmas. -/

/-- Total number of bits of a `(value, width)` sequence. -/
def sumBits : List (Nat × Nat) → Nat
  | [] => 0
  | p :: ps => p.2 + sumBits ps

/-- The little-endian integer formed by concatenating the values of a
`(value, width)` sequence, first value in the least-significant bits. -/
def streamVal : List (Nat × Nat) → Nat
  | [] => 0
  | p :: ps => p.1 + 2 ^ p.2 * streamVal ps

/-- Writing a whole `(value, width)` sequence with `PutValue`, conjoining
the success flags. -/
def writeAll (w : BitWriter) : List (Nat × Nat) → Bool × BitWriter
  | [] => (true, w)
  | p :: ps =>
    let s := w.PutValue p.1 p.2
    let rest := writeAll s.2 ps
    (s.1 && rest.1, rest.2)

/-- Reading a sequence of widths back with `GetValue`. -/
def readAll (r : BitReader) (sizeT : Nat) : List Nat → List (Option Nat) × BitReader
  | [] => ([], r)
  | n :: ns =>
    let g := r.GetValue n sizeT
    let rest := readAll g.2 sizeT ns
    (g.1 :: rest.1, rest.2)

/-- Writer representation invariant: after `N` stream bits with combined
little-endian value `S` have been written, the cursor sits at byte
`8 * (N / 64)` / bit `N % 64`, the 64-bit accumulator holds the unflushed
part of `S`, the flushed bytes are the low bytes of `S`, and the rest of
the buffer is untouched. -/
def WRep (buf0 : Nat → Nat) (cap S N : Nat) (w : BitWriter) : Prop :=
  w.max_bytes = cap ∧
  w.byte_offset = 8 * (N / 64) ∧
  w.bit_offset = N % 64 ∧
  w.buffered_values = S / 2 ^ (64 * (N / 64)) ∧
  (∀ i, i < 8 * (N / 64) → w.buffer i = S / 2 ^ (8 * i) % 256) ∧
  (∀ i, 8 * (N / 64) ≤ i → w.buffer i = buf0 i)

/-- Validity of the reader's 64-bit window: it is a genuine 64-bit value and
its loaded bits agree with the underlying buffer bytes (only
`min 8 (cap - byo)` bytes are ever loaded; the stale rest is never read). -/
def WindowOk (buf : Nat → Nat) (cap byo bv : Nat) : Prop :=
  bv < 2 ^ 64 ∧
  ∀ j, j < 8 * min 8 (cap - byo) →
    bv.testBit j = (buf (byo + j / 8)).testBit (j % 8)

/-- Reader representation invariant at absolute stream bit position `pos`. -/
def RRep (buf : Nat → Nat) (cap pos : Nat) (r : BitReader) : Prop :=
  r.buffer = buf ∧ r.max_bytes = cap ∧
  r.byte_offset = 8 * (pos / 64) ∧ r.bit_offset = pos % 64 ∧
  WindowOk buf cap r.byte_offset r.buffered_values

/-- The values a reader positioned at `pos` should see for a width list. -/
def expectedReads (buf : Nat → Nat) : Nat → List Nat → List (Option Nat)
  | _, [] => []
  | pos, n :: ns => some (bitsAt buf pos n) :: expectedReads buf (pos + n) ns

end BitUtil

namespace writer_schema

/-- Modelled from the spec: the physical type of a primitive column.  The
flattener only inspects whether it is `FIXED_LEN_BYTE_ARRAY` (the one type
requiring a `type_length`); the logical-type header is not among the
sources here. -/
inductive PhysicalType where
  | BOOLEAN
  | INT32
  | INT64
  | FLOAT
  | DOUBLE
  | BYTE_ARRAY
  | FLBA
  deriving DecidableEq

/-- `writer_schema::node` of `writer_schema.hh`: a schema tree node is a
primitive, struct, list or map.  The `encoding` and `compression` enum
values are opaque to the flattener and modelled as `Nat` codes. -/
inductive node where
  | primitive (name : String) (opt : Bool) (physical_type : PhysicalType)
      (type_length : Option Nat) (encoding : Nat) (compression : Nat)
  | strct (name : String) (opt : Bool) (fields : List node)
  | list (name : String) (opt : Bool) (element : node)
  | map (name : String) (opt : Bool) (key : node) (value : node)

/-- `writer_schema::schema` of `writer_schema.hh`. -/
structure schema where
  fields : List node

/-- Modelled from the spec: the flat schema element emitted per node (§4.5);
`format::SchemaElement` is declared outside the sources here.  `repetition`:
0 = REQUIRED, 1 = OPTIONAL, 2 = REPEATED; `converted_type`: 1 = LIST,
2 = MAP. -/
structure SchemaElement where
  name : String
  repetition : Nat
  num_children : Option Nat
  converted_type : Option Nat
  physical_type : Option PhysicalType
  type_length : Option Nat
  deriving DecidableEq

/-- `writer_schema::write_schema_result` of `writer_schema.hh`: the flat
element list together with the leaf *paths* — the declared result type has
no field for repetition or definition levels. -/
structure write_schema_result where
  elements : List SchemaElement
  leaf_paths : List (List String)
  deriving DecidableEq

def nodeName : node → String
  | node.primitive name _ _ _ _ _ => name
  | node.strct name _ _ => name
  | node.list name _ _ => name
  | node.map name _ _ _ => name

def nodeOpt : node → Bool
  | node.primitive _ opt _ _ _ _ => opt
  | node.strct _ opt _ => opt
  | node.list _ opt _ => opt
  | node.map _ opt _ _ => opt

/-- No duplicate names (the struct-field rejection rule of §4.5). -/
def namesNodup : List String → Bool
  | [] => true
  | n :: ns => (!ns.contains n) && namesNodup ns

mutual

/-- Modelled from the spec: the §4.5 depth-first left-to-right traversal.
`rl`/`dl` are the accumulated repetition/definition levels, `path` the
accumulated path, `fn` an override for the node's name (used to rename a
list element to "element").  Produces the emitted elements and the
document-order leaf descriptors `(path, max_rep_level, max_def_level)`;
rejects a `FIXED_LEN_BYTE_ARRAY` without `type_length`, duplicate field
names within a struct, and an optional map key. -/
def flattenNode (rl dl : Nat) (path : List String) (fn : Option String) :
    node → Except String (List SchemaElement × List (List String × Nat × Nat))
  | node.primitive name opt pt tl _ _ =>
      match pt, tl with
      | PhysicalType.FLBA, none =>
          Except.error "FIXED_LEN_BYTE_ARRAY without type_length"
      | _, _ =>
          Except.ok
            ([⟨fn.getD name, if opt then 1 else 0, none, none, some pt, tl⟩],
             [(path ++ [fn.getD name], rl, dl + (if opt then 1 else 0))])
  | node.strct name opt fields =>
      if namesNodup (fields.map nodeName) then
        match flattenFields rl (dl + (if opt then 1 else 0))
            (path ++ [fn.getD name]) fields with
        | Except.error e => Except.error e
        | Except.ok sub =>
            Except.ok (⟨fn.getD name, if opt then 1 else 0, some fields.length,
              none, none, none⟩ :: sub.1, sub.2)
      else Except.error "duplicate field names within a struct"
  | node.list name opt element =>
      match flattenNode (rl + 1) (dl + 1 + (if opt then 1 else 0))
          (path ++ [fn.getD name, "list"]) (some "element") element with
      | Except.error e => Except.error e
      | Except.ok sub =>
          Except.ok (⟨fn.getD name, if opt then 1 else 0, some 1, some 1,
            none, none⟩ :: ⟨"list", 2, some 1, none, none, none⟩ :: sub.1, sub.2)
  | node.map name opt key value =>
      if nodeOpt key then Except.error "optional map key"
      else
        match flattenNode (rl + 1) (dl + 1 + (if opt then 1 else 0))
            (path ++ [fn.getD name, "key_value"]) none key with
        | Except.error e => Except.error e
        | Except.ok subk =>
            match flattenNode (rl + 1) (dl + 1 + (if opt then 1 else 0))
                (path ++ [fn.getD name, "key_value"]) none value with
            | Except.error e => Except.error e
            | Except.ok subv =>
                Except.ok (⟨fn.getD name, if opt then 1 else 0, some 1, some 2,
                  none, none⟩ :: ⟨"key_value", 2, some 2, none, none, none⟩ ::
                  (subk.1 ++ subv.1), subk.2 ++ subv.2)

/-- Modelled from the spec: left-to-right traversal of a field list. -/
def flattenFields (rl dl : Nat) (path : List String) :
    List node → Except String (List SchemaElement × List (List String × Nat × Nat))
  | [] => Except.ok ([], [])
  | f :: fs =>
      match flattenNode rl dl path none f with
      | Except.error e => Except.error e
      | Except.ok sub =>
          match flattenFields rl dl path fs with
          | Except.error e => Except.error e
          | Except.ok rest => Except.ok (sub.1 ++ rest.1, sub.2 ++ rest.2)

end

/-- Modelled from the spec: `write_schema` runs the §4.5 traversal from the
root; the returned `write_schema_result` (the type declared in
`writer_schema.hh`) keeps the elements and only the paths of the computed
leaf descriptors. -/
def write_schema (root : schema) : Except String write_schema_result :=
  match flattenFields 0 0 [] root.fields with
  | Except.error e => Except.error e
  | Except.ok sub => Except.ok ⟨sub.1, sub.2.map Prod.fst⟩

/-- Modelled from the spec: the document-order leaf descriptors
`(path, max_rep_level, max_def_level)` of the §4.5 traversal. -/
def leaf_descriptors (root : schema) :
    Except String (List (List String × Nat × Nat)) :=
  match flattenFields 0 0 [] root.fields with
  | Except.error e => Except.error e
  | Except.ok sub => Except.ok sub.2

end writer_schema

namespace BitUtil

/-- Disjoint bitwise-or is addition: bits of `a` lie below position `k`,
bits of `2^k * b` at or above it. -/
theorem lor_two_pow_mul {k a : Nat} (b : Nat) (h : a < 2 ^ k) :
    a ||| 2 ^ k * b = 2 ^ k * b + a := by
  apply Nat.eq_of_testBit_eq
  intro j
  rw [Nat.testBit_lor, Nat.testBit_mul_pow_two_add _ h]
  have hb0 : (2 ^ k * b).testBit j = if j < k then false else b.testBit (j - k) := by
    have := Nat.testBit_mul_pow_two_add (b := 0) (i := k) b (by positivity) j
    simpa using this
  by_cases hj : j < k
  · simp [hj, hb0]
  · have ha : a.testBit j = false :=
      Nat.testBit_lt_two_pow
        (lt_of_lt_of_le h (Nat.pow_le_pow_right (by norm_num) (by omega)))
    simp [hj, hb0, ha]

/-- Bit-level decomposition of xor into low bit and the rest. -/
theorem xor_decomp (a b : Nat) :
    a ^^^ b = 2 * (a / 2 ^^^ b / 2) + (a % 2 ^^^ b % 2) := by
  apply Nat.eq_of_testBit_eq
  intro j
  have hlow : (a % 2 ^^^ b % 2) < 2 ^ 1 := by
    rcases Nat.mod_two_eq_zero_or_one a with ha | ha <;>
      rcases Nat.mod_two_eq_zero_or_one b with hb | hb <;>
        rw [ha, hb] <;> decide
  have h2 : (2 : Nat) * (a / 2 ^^^ b / 2) = 2 ^ 1 * (a / 2 ^^^ b / 2) := by ring
  rw [Nat.testBit_xor, h2, Nat.testBit_mul_pow_two_add _ hlow]
  by_cases hj : j < 1
  · have hj0 : j = 0 := by omega
    subst hj0
    simp only [if_pos (by norm_num : (0:Nat) < 1), Nat.testBit_xor]
    have hma : (a % 2).testBit 0 = a.testBit 0 := by
      have := Nat.testBit_mod_two_pow a 1 0
      simpa using this
    have hmb : (b % 2).testBit 0 = b.testBit 0 := by
      have := Nat.testBit_mod_two_pow b 1 0
      simpa using this
    rw [hma, hmb]
  · rw [if_neg hj, Nat.testBit_xor]
    have hda : (a / 2).testBit (j - 1) = a.testBit j := by
      rw [show a / 2 = a >>> 1 by simp [Nat.shiftRight_eq_div_pow], Nat.testBit_shiftRight]
      congr 1; omega
    have hdb : (b / 2).testBit (j - 1) = b.testBit j := by
      rw [show b / 2 = b >>> 1 by simp [Nat.shiftRight_eq_div_pow], Nat.testBit_shiftRight]
      congr 1; omega
    rw [hda, hdb]

/-- Xor with an all-ones mask is complement: `x ^^^ (2^n - 1) = 2^n - 1 - x`. -/
theorem xor_two_pow_sub_one {n x : Nat} (h : x < 2 ^ n) :
    x ^^^ (2 ^ n - 1) = 2 ^ n - 1 - x := by
  induction n generalizing x with
  | zero =>
    have : x = 0 := by omega
    subst this; rfl
  | succ n ih =>
    have hpow : (0:Nat) < 2 ^ n := by positivity
    have hx2 : x / 2 < 2 ^ n := by omega
    have hmask : (2 ^ (n + 1) - 1) / 2 = 2 ^ n - 1 := by
      have : 2 ^ (n + 1) = 2 * 2 ^ n := by ring
      omega
    have hmaskm : (2 ^ (n + 1) - 1) % 2 = 1 := by
      have : 2 ^ (n + 1) = 2 * 2 ^ n := by ring
      omega
    rw [xor_decomp, hmask, hmaskm, ih hx2]
    have hxm : x % 2 = 0 ∨ x % 2 = 1 := Nat.mod_two_eq_zero_or_one x
    have hpow1 : 2 ^ (n + 1) = 2 * 2 ^ n := by ring
    rcases hxm with hxm | hxm <;> rw [hxm] <;> simp <;> omega

/-- `TrailingBits` on a genuine `uint64_t` is reduction mod `2^num_bits`. -/
theorem TrailingBits_eq_mod {v : Nat} (num_bits : Nat) (hv : v < 2 ^ 64) :
    BitUtil.TrailingBits v num_bits = v % 2 ^ num_bits := by
  unfold BitUtil.TrailingBits
  by_cases h0 : num_bits = 0
  · simp [h0]
    omega
  · by_cases h64 : num_bits ≥ 64
    · rw [if_neg h0, if_pos h64]
      have : v < 2 ^ num_bits :=
        lt_of_lt_of_le hv (Nat.pow_le_pow_right (by norm_num) h64)
      exact (Nat.mod_eq_of_lt this).symm
    · rw [if_neg h0, if_neg h64]
      rw [Nat.shiftLeft_eq, Nat.shiftRight_eq_div_pow]
      have hsplit : (2:Nat) ^ 64 = 2 ^ (64 - num_bits) * 2 ^ num_bits := by
        rw [← pow_add]; congr 1; omega
      rw [mul_comm (v) (2 ^ (64 - num_bits)), hsplit, Nat.mul_mod_mul_left]
      exact Nat.mul_div_cancel_left _ (by positivity)

/-- `BytesForBits` is the ceiling of division by 8. -/
theorem BytesForBits_eq (bits : Nat) : BitUtil.BytesForBits bits = (bits + 7) / 8 := by
  unfold BitUtil.BytesForBits
  rw [Nat.shiftRight_eq_div_pow]
  have h7 : bits &&& 7 = bits % 8 := by
    have : (7 : Nat) = 2 ^ 3 - 1 := by norm_num
    rw [this, Nat.and_pow_two_sub_one_eq_mod]
  rw [h7]
  by_cases h : bits % 8 = 0
  · rw [if_neg (by omega)]
    omega
  · rw [if_pos h]
    omega

/-- `x &&& 0x7F` is `x % 128`. -/
theorem and_0x7F (x : Nat) : x &&& 0x7F = x % 128 := by
  have : (0x7F : Nat) = 2 ^ 7 - 1 := by norm_num
  rw [this, Nat.and_pow_two_sub_one_eq_mod]

/-- The continuation-bit test: `x &&& 0x80 = 0` iff bit 7 of `x` is clear. -/
theorem and_0x80 (x : Nat) : x &&& 0x80 = (x.testBit 7).toNat * 128 := by
  have : (0x80 : Nat) = 2 ^ 7 := by norm_num
  rw [this, Nat.and_two_pow]

/-- For a value below 256, the continuation bit is set iff the value is at
least 128. -/
theorem and_0x80_eq_zero_iff {x : Nat} (h : x < 256) :
    x &&& 0x80 = 0 ↔ x % 256 < 128 := by
  rw [and_0x80, Nat.mod_eq_of_lt h]
  have ht : x.testBit 7 = decide (x / 2 ^ 7 % 2 = 1) := Nat.testBit_to_div_mod
  rcases hdec : decide (x / 2 ^ 7 % 2 = 1) with _ | _ <;> rw [hdec] at ht <;> rw [ht]
  · simp only [Bool.toNat_false, Nat.zero_mul]
    simp only [decide_eq_false_iff_not] at hdec
    norm_num at hdec ⊢
    omega
  · simp only [Bool.toNat_true, Nat.one_mul]
    simp only [decide_eq_true_eq] at hdec
    norm_num at hdec ⊢
    omega

/-- The loop guard of `PutVlqInt`: on a `uint32_t`, `v &&& 0xFFFFFF80`
extracts bits 7..31, i.e. `v / 128 * 128`. -/
theorem and_0xFFFFFF80 {v : Nat} (h : v < 2 ^ 32) :
    v &&& 0xFFFFFF80 = v / 128 * 128 := by
  have hmask : (0xFFFFFF80 : Nat) = (2 ^ 25 - 1) <<< 7 := by
    rw [Nat.shiftLeft_eq]; norm_num
  apply Nat.eq_of_testBit_eq
  intro j
  rw [Nat.testBit_land, hmask, Nat.testBit_shiftLeft, Nat.testBit_two_pow_sub_one]
  have hdm : v / 128 * 128 = (v >>> 7) <<< 7 := by
    rw [Nat.shiftRight_eq_div_pow, Nat.shiftLeft_eq]
  rw [hdm, Nat.testBit_shiftLeft, Nat.testBit_shiftRight]
  by_cases hj : 7 ≤ j
  · have hjj : 7 + (j - 7) = j := by omega
    by_cases hj32 : j < 32
    · simp [hj, hjj, show j - 7 < 25 by omega]
    · have hv : v.testBit j = false :=
        Nat.testBit_lt_two_pow
          (lt_of_lt_of_le h (Nat.pow_le_pow_right (by norm_num) (by omega)))
      simp [hj, hjj, hv]
  · simp [hj]

/-! ### Byte-store access lemmas -/

theorem storeBytes_zero (buf : Nat → Nat) (o x : Nat) :
    storeBytes buf o x 0 = buf := by
  funext i
  simp only [storeBytes]
  rw [if_neg (by omega)]

theorem storeBytes_inside {o i n : Nat} (buf : Nat → Nat) (x : Nat)
    (h1 : o ≤ i) (h2 : i < o + n) :
    storeBytes buf o x n i = x / 2 ^ ((i - o) * 8) % 256 := by
  simp only [storeBytes]
  rw [if_pos ⟨h1, h2⟩]

theorem storeBytes_outside {o i n : Nat} (buf : Nat → Nat) (x : Nat)
    (h : i < o ∨ o + n ≤ i) :
    storeBytes buf o x n i = buf i := by
  simp only [storeBytes]
  rw [if_neg (by omega)]

theorem writeBytesList_outside (bs : List Nat) :
    ∀ (buf : Nat → Nat) (o i : Nat), i < o ∨ o + bs.length ≤ i →
      writeBytesList buf o bs i = buf i := by
  induction bs with
  | nil => intro buf o i _; rfl
  | cons b bs ih =>
    intro buf o i hi
    simp only [List.length_cons] at hi
    simp only [writeBytesList]
    rw [ih _ (o + 1) i (by omega), storeBytes_outside _ _ (by omega)]

theorem writeBytesList_get (bs : List Nat) :
    ∀ (buf : Nat → Nat) (o j : Nat) (h : j < bs.length),
      writeBytesList buf o bs (o + j) = bs.get ⟨j, h⟩ % 256 := by
  induction bs with
  | nil => intro buf o j h; simp at h
  | cons b bs ih =>
    intro buf o j h
    match j with
    | 0 =>
      simp only [writeBytesList]
      rw [writeBytesList_outside _ _ _ _ (Or.inl (by omega))]
      rw [storeBytes_inside _ _ (by omega) (by omega)]
      simp
    | j + 1 =>
      simp only [List.length_cons] at h
      simp only [writeBytesList]
      have hoj : o + (j + 1) = (o + 1) + j := by omega
      rw [hoj, ih _ (o + 1) j (by omega)]
      rfl

/-! ### Properties of the VLQ byte list -/

theorem vlqEncode_ne_nil (v : Nat) : vlqEncode v ≠ [] := by
  rw [vlqEncode]
  split <;> simp

theorem vlqEncode_small {v : Nat} (h : v < 128) : vlqEncode v = [v] := by
  rw [vlqEncode]
  have hg : v &&& 0xFFFFFF80 = 0 := by
    rw [and_0xFFFFFF80 (by omega)]
    have : v / 128 = 0 := Nat.div_eq_of_lt h
    rw [this]
  rw [dif_neg (by omega)]
  rw [and_0x7F, Nat.mod_eq_of_lt h]

theorem vlqEncode_large {v : Nat} (hv : v < 2 ^ 32) (h : 128 ≤ v) :
    vlqEncode v = (v % 128 + 128) :: vlqEncode (v / 128) := by
  rw [vlqEncode]
  have hg : v &&& 0xFFFFFF80 ≠ 0 := by
    rw [and_0xFFFFFF80 hv]
    have : 1 ≤ v / 128 := (Nat.one_le_div_iff (by norm_num)).mpr h
    omega
  rw [dif_pos hg, and_0x7F]
  have hb : (v % 128) ||| 0x80 = v % 128 + 128 := by
    have hm : v % 128 < 2 ^ 7 := by
      have := Nat.mod_lt v (y := 128) (by norm_num)
      omega
    have hl := lor_two_pow_mul (k := 7) (a := v % 128) 1 hm
    norm_num at hl
    rw [hl]
    omega
  rw [hb, Nat.shiftRight_eq_div_pow]

theorem vlqEncode_bytes_lt (v : Nat) (hv : v < 2 ^ 32) :
    ∀ b ∈ vlqEncode v, b < 256 := by
  induction v using Nat.strong_induction_on with
  | _ v ih =>
    by_cases h : 128 ≤ v
    · rw [vlqEncode_large hv h]
      intro b hb
      rcases List.mem_cons.mp hb with rfl | hb
      · have := Nat.mod_lt v (y := 128) (by norm_num); omega
      · exact ih (v / 128) (Nat.div_lt_self (by omega) (by norm_num)) (by omega) b hb
    · rw [vlqEncode_small (by omega)]
      intro b hb
      simp at hb
      omega

theorem BytesForBits_zero : BytesForBits 0 = 0 := by decide

theorem assembleBytes_one (buf : Nat → Nat) (o : Nat) :
    assembleBytes buf o 1 = buf o := by
  simp [assembleBytes]

/-! ### Byte-aligned writer steps -/

theorem Flush_true_aligned {w : BitWriter}
    (h0 : w.bit_offset = 0) (hbv : w.buffered_values = 0) :
    w.Flush true = w := by
  unfold BitWriter.Flush
  rw [if_pos rfl]
  ext i <;> simp [h0, hbv, BytesForBits_zero, storeBytes_zero]

theorem PutAligned_one_aligned {w : BitWriter} (val : Nat)
    (h0 : w.bit_offset = 0) (hbv : w.buffered_values = 0)
    (hcap : w.byte_offset + 1 ≤ w.max_bytes) :
    w.PutAligned val 1 =
      (true, { w with buffer := storeBytes w.buffer w.byte_offset val 1,
                      byte_offset := w.byte_offset + 1 }) := by
  unfold BitWriter.PutAligned BitWriter.GetNextBytePtr
  rw [Flush_true_aligned h0 hbv]
  rw [if_neg (by omega)]

theorem PutAligned_one_aligned_fail {w : BitWriter} (val : Nat)
    (h0 : w.bit_offset = 0) (hbv : w.buffered_values = 0)
    (hcap : w.max_bytes < w.byte_offset + 1) :
    w.PutAligned val 1 = (false, w) := by
  unfold BitWriter.PutAligned BitWriter.GetNextBytePtr
  rw [Flush_true_aligned h0 hbv]
  rw [if_pos (by omega)]

/-- The `PutVlqInt` loop, from a byte-aligned writer with enough room,
appends exactly the `vlqEncode` bytes and succeeds. -/
theorem PutVlqIntAux_spec :
    ∀ (v : Nat), v < 2 ^ 32 → ∀ (w : BitWriter) (res : Bool),
      w.bit_offset = 0 → w.buffered_values = 0 →
      w.byte_offset + (vlqEncode v).length ≤ w.max_bytes →
      BitWriter.PutVlqIntAux w v res =
        (res, { w with buffer := writeBytesList w.buffer w.byte_offset (vlqEncode v),
                       byte_offset := w.byte_offset + (vlqEncode v).length }) := by
  intro v
  induction v using Nat.strong_induction_on with
  | _ v ih =>
    intro hv32 w res h0 hbv hcap
    by_cases h : 128 ≤ v
    · have hg : v &&& 0xFFFFFF80 ≠ 0 := by
        rw [and_0xFFFFFF80 hv32]
        have : 1 ≤ v / 128 := (Nat.one_le_div_iff (by norm_num)).mpr h
        omega
      have henc := vlqEncode_large hv32 h
      have hlen : (vlqEncode v).length = (vlqEncode (v / 128)).length + 1 := by
        rw [henc]; simp
      rw [BitWriter.PutVlqIntAux, dif_pos hg]
      have hb : (v &&& 0x7F) ||| 0x80 = v % 128 + 128 := by
        rw [and_0x7F]
        have hm : v % 128 < 2 ^ 7 := by
          have := Nat.mod_lt v (y := 128) (by norm_num)
          omega
        have hl := lor_two_pow_mul (k := 7) (a := v % 128) 1 hm
        norm_num at hl
        rw [hl]
        omega
      rw [hb, PutAligned_one_aligned _ h0 hbv (by omega)]
      have hsh : v >>> 7 = v / 128 := by
        rw [Nat.shiftRight_eq_div_pow]
      rw [hsh]
      have hrec := ih (v / 128) (Nat.div_lt_self (by omega) (by norm_num))
        (lt_of_le_of_lt (Nat.div_le_self _ _) hv32)
        ({ w with buffer := storeBytes w.buffer w.byte_offset (v % 128 + 128) 1,
                  byte_offset := w.byte_offset + 1 }) (res && true)
        h0 hbv (by simp only [hlen] at hcap; dsimp only; omega)
      dsimp only at hrec
      rw [hrec]
      simp only [Bool.and_true, Prod.mk.injEq]
      refine ⟨trivial, ?_⟩
      ext i
      · rw [henc]
        rfl
      · rfl
      · rfl
      · dsimp only
        rw [hlen]
        omega
      · rfl
    · have hg : ¬ (v &&& 0xFFFFFF80 ≠ 0) := by
        rw [and_0xFFFFFF80 hv32]
        have : v / 128 = 0 := Nat.div_eq_of_lt (by omega)
        omega
      have henc := vlqEncode_small (show v < 128 by omega)
      rw [BitWriter.PutVlqIntAux, dif_neg hg]
      rw [PutAligned_one_aligned _ h0 hbv (by rw [henc] at hcap; simpa using hcap)]
      simp only [Bool.and_true, Prod.mk.injEq]
      refine ⟨trivial, ?_⟩
      ext i
      · rw [henc, and_0x7F, Nat.mod_eq_of_lt (by omega)]
        rfl
      · rfl
      · rfl
      · rw [henc]
        rfl
      · rfl

theorem vlqEncode_length_le :
    ∀ (k v : Nat), v < 2 ^ 32 → v < 2 ^ (7 * k) → (vlqEncode v).length ≤ max k 1 := by
  intro k
  induction k with
  | zero =>
    intro v _ hv
    have : v = 0 := by simpa using hv
    subst this
    rw [vlqEncode_small (by norm_num)]
    simp
  | succ k ih =>
    intro v hv32 hv
    by_cases h : 128 ≤ v
    · rw [vlqEncode_large hv32 h]
      have hk1 : 1 ≤ k := by
        by_contra hk
        have : k = 0 := by omega
        subst this
        simp at hv
        omega
      have hd32 : v / 128 < 2 ^ 32 := lt_of_le_of_lt (Nat.div_le_self _ _) hv32
      have hdk : v / 128 < 2 ^ (7 * k) := by
        have h128 : (128 : Nat) = 2 ^ 7 := by norm_num
        rw [Nat.div_lt_iff_lt_mul (by norm_num), h128, ← pow_add]
        have : 7 * k + 7 = 7 * (k + 1) := by omega
        rw [this]
        exact hv
      have := ih (v / 128) hd32 hdk
      simp only [List.length_cons]
      omega
    · rw [vlqEncode_small (by omega)]
      simp

/-! ### Byte-aligned reader steps -/

theorem GetAligned_one_aligned {r : BitReader}
    (h0 : r.bit_offset = 0) (hcap : r.byte_offset + 1 ≤ r.max_bytes) :
    ∃ bv, r.GetAligned 1 1 =
      (some (r.buffer r.byte_offset),
       { r with byte_offset := r.byte_offset + 1, bit_offset := 0,
                buffered_values := bv }) := by
  unfold BitReader.GetAligned
  rw [if_neg (by omega), h0, BytesForBits_zero, if_neg (by omega)]
  dsimp only
  rw [Nat.add_zero, assembleBytes_one]
  exact ⟨_, rfl⟩

theorem GetAligned_one_fail {r : BitReader}
    (h0 : r.bit_offset = 0) (hcap : r.max_bytes < r.byte_offset + 1) :
    r.GetAligned 1 1 = (none, r) := by
  unfold BitReader.GetAligned
  rw [if_neg (by omega)]
  rw [h0, BytesForBits_zero]
  rw [if_pos (by omega)]

/-- Bytes below 128 have the continuation bit clear. -/
theorem and_0x80_of_lt {x : Nat} (h : x < 128) : x &&& 0x80 = 0 := by
  rw [and_0x80]
  have : x.testBit 7 = false := Nat.testBit_lt_two_pow (by norm_num; omega)
  rw [this]
  simp

/-- Bytes in `[128, 256)` have the continuation bit set. -/
theorem and_0x80_of_ge {x : Nat} (h1 : 128 ≤ x) (h2 : x < 256) :
    x &&& 0x80 ≠ 0 := by
  rw [and_0x80]
  have ht : x.testBit 7 = decide (x / 2 ^ 7 % 2 = 1) := Nat.testBit_to_div_mod
  have hd : x / 2 ^ 7 % 2 = 1 := by norm_num; omega
  rw [hd] at ht
  simp at ht
  rw [ht]
  norm_num

/-- The decode loop of `GetVlqInt`, fed the bytes of `vlqEncode u` with
no truncation pending (`u < 2^(32 - 7i)`), accumulates `tmp + 2^(7i) * u`
and consumes exactly the encoding. -/
theorem GetVlqIntLoop_spec :
    ∀ (k i : Nat), i + k = 4 → ∀ (u tmp : Nat) (r : BitReader),
      r.bit_offset = 0 →
      u < 2 ^ (32 - 7 * i) → tmp < 2 ^ (7 * i) →
      MatchesAt r.buffer r.byte_offset (vlqEncode u) →
      r.byte_offset + (vlqEncode u).length ≤ r.max_bytes →
      ∃ bv, r.GetVlqIntLoop tmp i =
        (some (tmp + 2 ^ (7 * i) * u),
         { r with byte_offset := r.byte_offset + (vlqEncode u).length,
                  bit_offset := 0, buffered_values := bv }) := by
  intro k
  induction k with
  | zero =>
    intro i hik u tmp r h0 hu htmp hm hcap
    have hi : i = 4 := by omega
    subst hi
    have hu16 : u < 16 := by
      have : (32 : Nat) - 7 * 4 = 4 := by norm_num
      rw [this] at hu
      omega
    have henc := vlqEncode_small (show u < 128 by omega)
    rw [henc] at hm hcap
    obtain ⟨hbyte, -⟩ := hm
    simp only [List.length_cons, List.length_nil] at hcap
    obtain ⟨bv1, hga⟩ := GetAligned_one_aligned h0 (by omega)
    refine ⟨bv1, ?_⟩
    rw [BitReader.GetVlqIntLoop, dif_pos (by norm_num [BitReader.kMaxVlqByteLength])]
    rw [hga]
    dsimp only
    rw [hbyte]
    have hand : u &&& 0x7F = u := by
      rw [and_0x7F, Nat.mod_eq_of_lt (by omega)]
    rw [hand]
    have hsh : (u <<< (7 * 4)) % 2 ^ 32 = 2 ^ (7 * 4) * u := by
      rw [Nat.shiftLeft_eq, Nat.mod_eq_of_lt (by norm_num; omega), mul_comm]
    rw [hsh, lor_two_pow_mul u htmp]
    rw [if_pos (and_0x80_of_lt (by omega))]
    rw [henc]
    simp only [List.length_cons, List.length_nil, Prod.mk.injEq]
    exact ⟨by rw [Nat.add_comm (2 ^ (7 * 4) * u) tmp], trivial⟩
  | succ k ih =>
    intro i hik u tmp r h0 hu htmp hm hcap
    have hi4 : i < 4 := by omega
    by_cases h128 : 128 ≤ u
    · -- continuation byte, recurse
      have hi3 : 7 * i + 7 ≤ 28 := by omega
      have hu32 : u < 2 ^ 32 :=
        lt_of_lt_of_le hu (Nat.pow_le_pow_right (by norm_num) (by omega))
      have henc := vlqEncode_large hu32 h128
      rw [henc] at hm hcap
      obtain ⟨hbyte, hmtail⟩ := hm
      simp only [List.length_cons] at hcap
      obtain ⟨bv1, hga⟩ := GetAligned_one_aligned h0 (by omega)
      rw [BitReader.GetVlqIntLoop, dif_pos (by norm_num [BitReader.kMaxVlqByteLength]; omega)]
      rw [hga]
      dsimp only
      rw [hbyte]
      have humod : u % 128 < 128 := Nat.mod_lt u (by norm_num)
      have hand : (u % 128 + 128) &&& 0x7F = u % 128 := by
        rw [and_0x7F]
        omega
      rw [hand]
      have hsh : ((u % 128) <<< (7 * i)) % 2 ^ 32 = 2 ^ (7 * i) * (u % 128) := by
        rw [Nat.shiftLeft_eq, mul_comm, Nat.mod_eq_of_lt]
        calc 2 ^ (7 * i) * (u % 128) < 2 ^ (7 * i) * 128 := by
              exact mul_lt_mul_of_pos_left humod (by positivity)
          _ = 2 ^ (7 * i + 7) := by rw [pow_add]; norm_num
          _ ≤ 2 ^ 32 := Nat.pow_le_pow_right (by norm_num) (by omega)
      rw [hsh, lor_two_pow_mul (u % 128) htmp]
      rw [if_neg (and_0x80_of_ge (by omega) (by omega))]
      have hrec := ih (i + 1) (by omega) (u / 128)
        (2 ^ (7 * i) * (u % 128) + tmp)
        ({ r with byte_offset := r.byte_offset + 1, bit_offset := 0,
                  buffered_values := bv1 })
        rfl
        (by
          rw [Nat.div_lt_iff_lt_mul (by norm_num : (0:Nat) < 128)]
          have hpow : 2 ^ (32 - 7 * (i + 1)) * 128 = 2 ^ (32 - 7 * i) := by
            have h1 : (128 : Nat) = 2 ^ 7 := by norm_num
            rw [h1, ← pow_add]
            congr 1
            omega
          rw [hpow]
          exact hu)
        (by
          have : 2 ^ (7 * i) * (u % 128) + tmp < 2 ^ (7 * i) * 128 := by
            have h1 : 2 ^ (7 * i) * (u % 128) + 2 ^ (7 * i) ≤ 2 ^ (7 * i) * 128 := by
              calc 2 ^ (7 * i) * (u % 128) + 2 ^ (7 * i)
                  = 2 ^ (7 * i) * (u % 128 + 1) := by ring
                _ ≤ 2 ^ (7 * i) * 128 := Nat.mul_le_mul_left _ (by omega)
            omega
          calc 2 ^ (7 * i) * (u % 128) + tmp < 2 ^ (7 * i) * 128 := this
            _ = 2 ^ (7 * (i + 1)) := by rw [show 7 * (i + 1) = 7 * i + 7 by omega, pow_add]; norm_num
        )
        (by exact hmtail)
        (by dsimp only; omega)
      obtain ⟨bv2, hrec⟩ := hrec
      dsimp only at hrec
      refine ⟨bv2, ?_⟩
      rw [hrec]
      have hpow : 2 ^ (7 * (i + 1)) = 2 ^ (7 * i) * 128 := by
        rw [show 7 * (i + 1) = 7 * i + 7 by omega, pow_add]
        norm_num
      have hstep : 2 ^ (7 * i) * (u % 128) + 2 ^ (7 * i) * 128 * (u / 128)
          = 2 ^ (7 * i) * u := by
        have hsplit : u % 128 + 128 * (u / 128) = u := by omega
        calc 2 ^ (7 * i) * (u % 128) + 2 ^ (7 * i) * 128 * (u / 128)
            = 2 ^ (7 * i) * (u % 128 + 128 * (u / 128)) := by ring
          _ = 2 ^ (7 * i) * u := by rw [hsplit]
      simp only [Prod.mk.injEq, Option.some.injEq]
      constructor
      · rw [hpow]
        omega
      · ext j
        · rfl
        · rfl
        · rfl
        · dsimp only
          rw [henc]
          simp only [List.length_cons]
          omega
        · rfl
    · -- terminal byte
      have henc := vlqEncode_small (show u < 128 by omega)
      rw [henc] at hm hcap
      obtain ⟨hbyte, -⟩ := hm
      simp only [List.length_cons, List.length_nil] at hcap
      obtain ⟨bv1, hga⟩ := GetAligned_one_aligned h0 (by omega)
      refine ⟨bv1, ?_⟩
      rw [BitReader.GetVlqIntLoop, dif_pos (by norm_num [BitReader.kMaxVlqByteLength]; omega)]
      rw [hga]
      dsimp only
      rw [hbyte]
      have hand : u &&& 0x7F = u := by
        rw [and_0x7F, Nat.mod_eq_of_lt (by omega)]
      rw [hand]
      have hsh : (u <<< (7 * i)) % 2 ^ 32 = 2 ^ (7 * i) * u := by
        rw [Nat.shiftLeft_eq, mul_comm, Nat.mod_eq_of_lt]
        calc 2 ^ (7 * i) * u < 2 ^ (7 * i) * 2 ^ (32 - 7 * i) := by
              exact mul_lt_mul_of_pos_left hu (by positivity)
          _ = 2 ^ 32 := by rw [← pow_add]; congr 1; omega
      rw [hsh, lor_two_pow_mul u htmp]
      rw [if_pos (and_0x80_of_lt (by omega))]
      rw [henc]
      simp only [List.length_cons, List.length_nil, Prod.mk.injEq]
      exact ⟨by rw [Nat.add_comm (2 ^ (7 * i) * u) tmp], trivial⟩

/-- Bytes written by `writeBytesList` (all below 256) read back as
themselves. -/
theorem MatchesAt_writeBytesList (bs : List Nat) (hb : ∀ b ∈ bs, b < 256) :
    ∀ (buf : Nat → Nat) (o : Nat), MatchesAt (writeBytesList buf o bs) o bs := by
  induction bs with
  | nil => intro buf o; trivial
  | cons b bs ih =>
    intro buf o
    refine ⟨?_, ?_⟩
    · rw [writeBytesList]
      rw [writeBytesList_outside _ _ _ _ (Or.inl (by omega))]
      rw [storeBytes_inside _ _ (by omega) (by omega)]
      have : b < 256 := hb b (by simp)
      simp only [Nat.sub_self, Nat.zero_mul, pow_zero, Nat.div_one]
      exact Nat.mod_eq_of_lt this
    · rw [writeBytesList]
      exact ih (fun x hx => hb x (by simp [hx])) _ _

/-- `GetVlqInt` on a byte-aligned reader over a well-formed encoding of a
`uint32_t` value decodes that value and consumes exactly the encoding. -/
theorem GetVlqInt_spec {r : BitReader} (u : Nat) (hu : u < 2 ^ 32)
    (h0 : r.bit_offset = 0)
    (hm : MatchesAt r.buffer r.byte_offset (vlqEncode u))
    (hcap : r.byte_offset + (vlqEncode u).length ≤ r.max_bytes) :
    ∃ bv, r.GetVlqInt =
      (some u, { r with byte_offset := r.byte_offset + (vlqEncode u).length,
                        bit_offset := 0, buffered_values := bv }) := by
  obtain ⟨bv, h⟩ :=
    GetVlqIntLoop_spec 4 0 rfl u 0 r h0 (by simpa using hu) (by norm_num) hm hcap
  refine ⟨bv, ?_⟩
  unfold BitReader.GetVlqInt
  rw [h]
  norm_num

theorem vlqEncode_length_le_five {u : Nat} (hu : u < 2 ^ 32) :
    (vlqEncode u).length ≤ 5 := by
  have h5 := vlqEncode_length_le 5 u hu
    (lt_of_lt_of_le hu (Nat.pow_le_pow_right (by norm_num) (by norm_num)))
  simpa using h5

/-- `PutVlqInt` on a fresh writer with enough room succeeds and writes
exactly `vlqEncode u`. -/
theorem PutVlqInt_init_spec (u : Nat) (buf0 : Nat → Nat) (cap : Nat)
    (hu : u < 2 ^ 32) (hcap : (vlqEncode u).length ≤ cap) :
    (BitWriter.init buf0 cap).PutVlqInt u =
      (true, { buffer := writeBytesList buf0 0 (vlqEncode u), max_bytes := cap,
               buffered_values := 0, byte_offset := (vlqEncode u).length,
               bit_offset := 0 }) := by
  unfold BitWriter.PutVlqInt
  have h := PutVlqIntAux_spec u hu (BitWriter.init buf0 cap) true rfl rfl
    (by dsimp only [BitWriter.init]; omega)
  rw [h]
  dsimp only [BitWriter.init]
  rw [Nat.zero_add]

/-! ### Claim C2: VLQ round trip -/

/-- C2: for every `u` in `[0, 2^32)`, encoding `u` with
`BitWriter::PutVlqInt` into a buffer of sufficient capacity and decoding
with `BitReader::GetVlqInt` returns `u`, and the encoding occupies at most
5 bytes. -/
theorem C2_vlq_roundtrip (u : Nat) (buf0 : Nat → Nat) (cap : Nat)
    (hu : u < 2 ^ 32) (hcap : 5 ≤ cap) :
    ((BitWriter.init buf0 cap).PutVlqInt u).1 = true ∧
    ((BitWriter.init buf0 cap).PutVlqInt u).2.bytes_written ≤ 5 ∧
    ((BitReader.init ((BitWriter.init buf0 cap).PutVlqInt u).2.buffer cap).GetVlqInt).1
      = some u := by
  have hlen := vlqEncode_length_le_five hu
  have hw := PutVlqInt_init_spec u buf0 cap hu (by omega)
  rw [hw]
  dsimp only
  refine ⟨rfl, ?_, ?_⟩
  · dsimp only [BitWriter.bytes_written]
    rw [BytesForBits_zero]
    omega
  · have hm : MatchesAt (writeBytesList buf0 0 (vlqEncode u)) 0 (vlqEncode u) :=
      MatchesAt_writeBytesList _ (vlqEncode_bytes_lt u hu) buf0 0
    obtain ⟨bv, hr⟩ := GetVlqInt_spec (r := BitReader.init (writeBytesList buf0 0 (vlqEncode u)) cap)
      u hu rfl hm (by dsimp only [BitReader.init]; omega)
    rw [hr]

/-- Witness for C2, at the spec scenario S2 (`u = 300`). -/
theorem C2_vlq_roundtrip_witness :
    (300 < 2 ^ 32 ∧ 5 ≤ 5) ∧
    (((BitWriter.init (fun _ => 0) 5).PutVlqInt 300).1 = true ∧
     ((BitWriter.init (fun _ => 0) 5).PutVlqInt 300).2.bytes_written ≤ 5 ∧
     ((BitReader.init ((BitWriter.init (fun _ => 0) 5).PutVlqInt 300).2.buffer 5).GetVlqInt).1
       = some 300) :=
  ⟨⟨by norm_num, le_refl 5⟩, C2_vlq_roundtrip 300 (fun _ => 0) 5 (by norm_num) (le_refl 5)⟩

/-! ### Claim C3: zigzag VLQ round trip -/

/-- For nonnegative `int32_t` inputs the zigzag argument of
`PutZigZagVlqInt` is `2 * v`. -/
theorem zigzag_arg_nonneg {v : Int} (h0 : 0 ≤ v) (h31 : v < 2 ^ 31) :
    ((BitWriter.toUInt32 v <<< 1) % 2 ^ 32) ^^^ BitWriter.toUInt32 (Int.fdiv v (2 ^ 31))
      = 2 * v.toNat := by
  have hq : Int.fdiv v (2 ^ 31) = 0 := by
    rw [Int.fdiv_eq_ediv _ (by positivity)]
    exact Int.ediv_eq_zero_of_lt h0 h31
  rw [hq]
  have h2 : BitWriter.toUInt32 0 = 0 := rfl
  rw [h2, Nat.xor_zero]
  have hu : BitWriter.toUInt32 v = v.toNat := by
    unfold BitWriter.toUInt32
    rw [Int.emod_eq_of_lt h0 (by omega)]
  rw [hu, Nat.shiftLeft_eq, Nat.mod_eq_of_lt]
  · omega
  · have : v.toNat < 2 ^ 31 := by omega
    omega

/-- For negative `int32_t` inputs the zigzag argument of
`PutZigZagVlqInt` is `2 * (-v) - 1`. -/
theorem zigzag_arg_neg {v : Int} (h0 : v < 0) (h31 : -2 ^ 31 ≤ v) :
    ((BitWriter.toUInt32 v <<< 1) % 2 ^ 32) ^^^ BitWriter.toUInt32 (Int.fdiv v (2 ^ 31))
      = 2 * (-v).toNat - 1 := by
  have hq : Int.fdiv v (2 ^ 31) = -1 := by
    rw [Int.fdiv_eq_ediv _ (by positivity)]
    omega
  rw [hq]
  have hsh : BitWriter.toUInt32 (-1) = 2 ^ 32 - 1 := by
    unfold BitWriter.toUInt32
    omega
  rw [hsh]
  have hu : BitWriter.toUInt32 v = 2 ^ 32 - (-v).toNat := by
    unfold BitWriter.toUInt32
    omega
  rw [hu]
  have hm1 : 1 ≤ (-v).toNat := by omega
  have hm31 : (-v).toNat ≤ 2 ^ 31 := by omega
  have hshl : ((2 ^ 32 - (-v).toNat) <<< 1) % 2 ^ 32 = 2 ^ 32 - 2 * (-v).toNat := by
    rw [Nat.shiftLeft_eq]
    have : (2 ^ 32 - (-v).toNat) * 2 ^ 1 = 2 ^ 32 + (2 ^ 32 - 2 * (-v).toNat) := by omega
    rw [this]
    omega
  rw [hshl]
  rw [xor_two_pow_sub_one (by omega)]
  omega

/-- Decoding an even zigzag value `2n` gives back `n`. -/
theorem toInt32_unzigzag_even {n : Nat} (hn : n < 2 ^ 31) :
    BitReader.toInt32 (((2 * n) >>> 1) ^^^
      ((-(Int.ofNat ((2 * n) &&& 1))) % 2 ^ 32).toNat) = (n : Int) := by
  have h1 : (2 * n) &&& 1 = 0 := by
    rw [Nat.and_one_is_mod]
    omega
  rw [h1]
  have h2 : ((-(Int.ofNat 0)) % 2 ^ 32).toNat = 0 := by
    norm_num
  rw [h2, Nat.xor_zero, Nat.shiftRight_eq_div_pow]
  have h3 : 2 * n / 2 ^ 1 = n := by omega
  rw [h3]
  unfold BitReader.toInt32
  rw [if_pos hn]

/-- Decoding an odd zigzag value `2m - 1` gives back `-m`. -/
theorem toInt32_unzigzag_odd {m : Nat} (h1 : 1 ≤ m) (hm : m ≤ 2 ^ 31) :
    BitReader.toInt32 (((2 * m - 1) >>> 1) ^^^
      ((-(Int.ofNat ((2 * m - 1) &&& 1))) % 2 ^ 32).toNat) = -(m : Int) := by
  have ha : (2 * m - 1) &&& 1 = 1 := by
    rw [Nat.and_one_is_mod]
    omega
  rw [ha]
  have hmask : ((-(Int.ofNat 1)) % 2 ^ 32).toNat = 2 ^ 32 - 1 := by
    have : -(Int.ofNat 1) = -1 := by norm_num
    rw [this]
    omega
  rw [hmask, Nat.shiftRight_eq_div_pow]
  have hdiv : (2 * m - 1) / 2 ^ 1 = m - 1 := by omega
  rw [hdiv]
  rw [xor_two_pow_sub_one (by omega)]
  unfold BitReader.toInt32
  rw [if_neg (by omega)]
  push_cast
  omega

/-- C3: for every `i` in `[-2^31, 2^31)`, the zigzag VLQ round trip through
`PutZigZagVlqInt` / `GetZigZagVlqInt` is the identity; moreover encoding
`-1` yields the single byte `0x01` and encoding `1` the single byte
`0x02`. -/
theorem C3_zigzag_roundtrip :
    (∀ (v : Int) (buf0 : Nat → Nat) (cap : Nat), -2 ^ 31 ≤ v → v < 2 ^ 31 → 5 ≤ cap →
      ((BitWriter.init buf0 cap).PutZigZagVlqInt v).1 = true ∧
      ((BitReader.init ((BitWriter.init buf0 cap).PutZigZagVlqInt v).2.buffer
          cap).GetZigZagVlqInt).1 = some v) ∧
    (((BitWriter.init (fun _ => 0) 5).PutZigZagVlqInt (-1)).2.buffer 0 = 0x01 ∧
     ((BitWriter.init (fun _ => 0) 5).PutZigZagVlqInt (-1)).2.bytes_written = 1) ∧
    (((BitWriter.init (fun _ => 0) 5).PutZigZagVlqInt 1).2.buffer 0 = 0x02 ∧
     ((BitWriter.init (fun _ => 0) 5).PutZigZagVlqInt 1).2.bytes_written = 1) := by
  have main : ∀ (v : Int) (buf0 : Nat → Nat) (cap : Nat),
      -2 ^ 31 ≤ v → v < 2 ^ 31 → 5 ≤ cap →
      ((BitWriter.init buf0 cap).PutZigZagVlqInt v).1 = true ∧
      ((BitReader.init ((BitWriter.init buf0 cap).PutZigZagVlqInt v).2.buffer
          cap).GetZigZagVlqInt).1 = some v := by
    intro v buf0 cap hlo hhi hcap
    by_cases hv : 0 ≤ v
    · have harg := zigzag_arg_nonneg hv hhi
      have hzz : (BitWriter.init buf0 cap).PutZigZagVlqInt v
          = (BitWriter.init buf0 cap).PutVlqInt (2 * v.toNat) := by
        unfold BitWriter.PutZigZagVlqInt
        dsimp only
        rw [harg]
      have hvn : v.toNat < 2 ^ 31 := by omega
      have hu32 : 2 * v.toNat < 2 ^ 32 := by omega
      have hlen := vlqEncode_length_le_five hu32
      have hw := PutVlqInt_init_spec (2 * v.toNat) buf0 cap hu32 (by omega)
      rw [hzz, hw]
      dsimp only
      refine ⟨rfl, ?_⟩
      have hm : MatchesAt (writeBytesList buf0 0 (vlqEncode (2 * v.toNat))) 0
          (vlqEncode (2 * v.toNat)) :=
        MatchesAt_writeBytesList _ (vlqEncode_bytes_lt _ hu32) buf0 0
      obtain ⟨bv, hr⟩ := GetVlqInt_spec
        (r := BitReader.init (writeBytesList buf0 0 (vlqEncode (2 * v.toNat))) cap)
        (2 * v.toNat) hu32 rfl hm (by dsimp only [BitReader.init]; omega)
      unfold BitReader.GetZigZagVlqInt
      rw [hr]
      dsimp only
      rw [toInt32_unzigzag_even hvn]
      rw [Int.toNat_of_nonneg hv]
    · have hneg : v < 0 := by omega
      have harg := zigzag_arg_neg hneg hlo
      have hzz : (BitWriter.init buf0 cap).PutZigZagVlqInt v
          = (BitWriter.init buf0 cap).PutVlqInt (2 * (-v).toNat - 1) := by
        unfold BitWriter.PutZigZagVlqInt
        dsimp only
        rw [harg]
      have hm1 : 1 ≤ (-v).toNat := by omega
      have hm31 : (-v).toNat ≤ 2 ^ 31 := by omega
      have hu32 : 2 * (-v).toNat - 1 < 2 ^ 32 := by omega
      have hlen := vlqEncode_length_le_five hu32
      have hw := PutVlqInt_init_spec (2 * (-v).toNat - 1) buf0 cap hu32 (by omega)
      rw [hzz, hw]
      dsimp only
      refine ⟨rfl, ?_⟩
      have hm : MatchesAt (writeBytesList buf0 0 (vlqEncode (2 * (-v).toNat - 1))) 0
          (vlqEncode (2 * (-v).toNat - 1)) :=
        MatchesAt_writeBytesList _ (vlqEncode_bytes_lt _ hu32) buf0 0
      obtain ⟨bv, hr⟩ := GetVlqInt_spec
        (r := BitReader.init (writeBytesList buf0 0 (vlqEncode (2 * (-v).toNat - 1))) cap)
        (2 * (-v).toNat - 1) hu32 rfl hm (by dsimp only [BitReader.init]; omega)
      unfold BitReader.GetZigZagVlqInt
      rw [hr]
      dsimp only
      rw [toInt32_unzigzag_odd hm1 hm31]
      congr 1
      omega
  refine ⟨main, ?_, ?_⟩
  · have harg := zigzag_arg_neg (v := -1) (by norm_num) (by norm_num)
    have hzz : (BitWriter.init (fun _ => 0) 5).PutZigZagVlqInt (-1)
        = (BitWriter.init (fun _ => 0) 5).PutVlqInt 1 := by
      unfold BitWriter.PutZigZagVlqInt
      dsimp only
      rw [harg]
      norm_num
    have hw := PutVlqInt_init_spec 1 (fun _ => 0) 5 (by norm_num) (by rw [vlqEncode_small (by norm_num)]; norm_num)
    rw [hzz, hw, vlqEncode_small (by norm_num)]
    refine ⟨?_, ?_⟩
    · rfl
    · simp [BitWriter.bytes_written, BytesForBits_zero]
  · have harg := zigzag_arg_nonneg (v := 1) (by norm_num) (by norm_num)
    have hzz : (BitWriter.init (fun _ => 0) 5).PutZigZagVlqInt 1
        = (BitWriter.init (fun _ => 0) 5).PutVlqInt 2 := by
      unfold BitWriter.PutZigZagVlqInt
      dsimp only
      rw [harg]
      norm_num
    have hw := PutVlqInt_init_spec 2 (fun _ => 0) 5 (by norm_num) (by rw [vlqEncode_small (by norm_num)]; norm_num)
    rw [hzz, hw, vlqEncode_small (by norm_num)]
    refine ⟨rfl, ?_⟩
    simp [BitWriter.bytes_written, BytesForBits_zero]

/-- Witness for C3, at `v = -1`. -/
theorem C3_zigzag_roundtrip_witness :
    (-2 ^ 31 ≤ (-1 : Int) ∧ (-1 : Int) < 2 ^ 31 ∧ 5 ≤ 5) ∧
    (((BitWriter.init (fun _ => 0) 5).PutZigZagVlqInt (-1)).1 = true ∧
     ((BitReader.init ((BitWriter.init (fun _ => 0) 5).PutZigZagVlqInt (-1)).2.buffer
         5).GetZigZagVlqInt).1 = some (-1)) :=
  ⟨⟨by norm_num, by norm_num, le_refl 5⟩,
   C3_zigzag_roundtrip.1 (-1) (fun _ => 0) 5 (by norm_num) (by norm_num) (le_refl 5)⟩

/-! ### Claims C4 and C5: failure behaviour of writer and reader -/

/-- `Flush(true)` never changes `bytes_written` (it only moves buffered
bits into whole bytes). -/
theorem Flush_true_bytes_written (w : BitWriter) :
    (w.Flush true).bytes_written = w.bytes_written := by
  unfold BitWriter.Flush BitWriter.bytes_written
  rw [if_pos rfl]
  dsimp only
  rw [BytesForBits_zero]
  omega

/-- C4 (amended): a failed `PutValue` leaves the entire writer state
unchanged, and a failed `PutAligned` leaves `bytes_written` unchanged.  (A
failed `PutVlqInt` is *not* transactional: see the counterexample.) -/
theorem C4_writer_failure_amended :
    (∀ (w : BitWriter) (v n : Nat),
      (w.PutValue v n).1 = false → (w.PutValue v n).2 = w) ∧
    (∀ (w : BitWriter) (val nb : Nat),
      (w.PutAligned val nb).1 = false →
      (w.PutAligned val nb).2.bytes_written = w.bytes_written) := by
  constructor
  · intro w v n h
    unfold BitWriter.PutValue at h ⊢
    by_cases hc : w.byte_offset * 8 + w.bit_offset + n > w.max_bytes * 8
    · rw [if_pos hc]
    · exfalso
      rw [if_neg hc] at h
      dsimp only at h
      by_cases h64 : w.bit_offset + n ≥ 64
      · rw [if_pos h64] at h
        simp at h
      · rw [if_neg h64] at h
        simp at h
  · intro w val nb h
    unfold BitWriter.PutAligned BitWriter.GetNextBytePtr at h ⊢
    by_cases hc : (w.Flush true).byte_offset + nb > (w.Flush true).max_bytes
    · rw [if_pos hc]
      exact Flush_true_bytes_written w
    · exfalso
      rw [if_neg hc] at h
      simp at h

/-- Witness for C4 (amended), at a zero-capacity writer. -/
theorem C4_writer_failure_amended_witness :
    ((((BitWriter.init (fun _ => 0) 0).PutValue 1 1).1 = false ∧
      ((BitWriter.init (fun _ => 0) 0).PutAligned 1 1).1 = false) ∧
     (((BitWriter.init (fun _ => 0) 0).PutValue 1 1).2 = BitWriter.init (fun _ => 0) 0 ∧
      ((BitWriter.init (fun _ => 0) 0).PutAligned 1 1).2.bytes_written
        = (BitWriter.init (fun _ => 0) 0).bytes_written)) :=
  ⟨⟨by decide, by decide⟩,
   C4_writer_failure_amended.1 _ 1 1 (by decide),
   C4_writer_failure_amended.2 _ 1 1 (by decide)⟩

/-- C4 counterexample: `PutVlqInt(128)` on a 1-byte buffer fails, yet it
has committed one byte (`0x80`) and advanced `bytes_written` from 0 to 1 —
a failed `PutVlqInt` is not transactional. -/
theorem C4_counterexample_putVlqInt_commits :
    (((BitWriter.init (fun _ => 0) 1).PutVlqInt 128).1 = false) ∧
    (((BitWriter.init (fun _ => 0) 1).PutVlqInt 128).2.bytes_written = 1) ∧
    (((BitWriter.init (fun _ => 0) 1).PutVlqInt 128).2.buffer 0 = 0x80) := by
  have h : (BitWriter.init (fun _ => 0) 1).PutVlqInt 128
      = ((BitWriter.init (fun _ => 0) 1).PutVlqIntAux 128 true) := rfl
  refine ⟨?_, ?_, ?_⟩ <;>
    simp [h, BitWriter.PutVlqInt, BitWriter.PutVlqIntAux, BitWriter.PutAligned,
          BitWriter.GetNextBytePtr, BitWriter.Flush, BitWriter.init,
          BitWriter.bytes_written, storeBytes, BytesForBits, TrailingBits] <;>
    decide

/-- C5 (amended): a failed `GetAligned` leaves the whole reader unchanged,
and a failed `GetValue` leaves the cursor unchanged.  (A failed
`GetVlqInt` can consume bytes: see the counterexample.) -/
theorem C5_reader_failure_amended :
    (∀ (r : BitReader) (nb sz : Nat),
      (r.GetAligned nb sz).1 = none → (r.GetAligned nb sz).2 = r) ∧
    (∀ (r : BitReader) (n sz : Nat),
      (r.GetValue n sz).1 = none →
      (r.GetValue n sz).2.byte_offset = r.byte_offset ∧
      (r.GetValue n sz).2.bit_offset = r.bit_offset) := by
  constructor
  · intro r nb sz h
    unfold BitReader.GetAligned at h ⊢
    by_cases h1 : nb > sz
    · rw [if_pos h1]
    · rw [if_neg h1] at h ⊢
      by_cases h2 : r.byte_offset + BytesForBits r.bit_offset + nb > r.max_bytes
      · rw [if_pos h2]
      · exfalso
        rw [if_neg h2] at h
        simp at h
  · intro r n sz h
    unfold BitReader.GetValue at h ⊢
    by_cases hb : (r.GetBatch n 1 sz).1 = 1
    · rw [if_pos hb] at h
      simp at h
    · rw [if_neg hb] at h ⊢
      have hcl : ((r.max_bytes - r.byte_offset) * 8 - r.bit_offset < n * 1) ∧
          ((r.max_bytes - r.byte_offset) * 8 - r.bit_offset) / n = 0 := by
        unfold BitReader.GetBatch at hb
        dsimp only at hb
        by_cases hclamp : (r.max_bytes - r.byte_offset) * 8 - r.bit_offset < n * 1
        · rw [if_pos hclamp] at hb
          refine ⟨hclamp, ?_⟩
          rcases Nat.eq_zero_or_pos n with hn | hn
          · omega
          · exact Nat.div_eq_of_lt (by omega)
        · rw [if_neg hclamp] at hb
          omega
      -- with a clamped batch of 0, nothing moves
      unfold BitReader.GetBatch
      dsimp only
      rw [if_pos hcl.1, hcl.2]
      by_cases hsz : sz = 4 <;>
        simp [hsz, BitReader.headLoop, BitReader.tailLoop, BitReader.packLoop,
              internal.unpack32]

/-- Witness for C5 (amended), at an empty reader. -/
theorem C5_reader_failure_amended_witness :
    ((((BitReader.init (fun _ => 0) 0).GetAligned 1 1).1 = none ∧
      ((BitReader.init (fun _ => 0) 0).GetValue 3 4).1 = none) ∧
     (((BitReader.init (fun _ => 0) 0).GetAligned 1 1).2 = BitReader.init (fun _ => 0) 0 ∧
      (((BitReader.init (fun _ => 0) 0).GetValue 3 4).2.byte_offset
         = (BitReader.init (fun _ => 0) 0).byte_offset ∧
       ((BitReader.init (fun _ => 0) 0).GetValue 3 4).2.bit_offset
         = (BitReader.init (fun _ => 0) 0).bit_offset))) :=
  ⟨⟨by decide, by decide⟩,
   C5_reader_failure_amended.1 _ 1 1 (by decide),
   C5_reader_failure_amended.2 _ 3 4 (by decide)⟩

/-- C5 counterexample: `GetVlqInt` on the 1-byte buffer `[0x80]` fails
(no terminating byte) but has consumed that byte: the cursor moved from
byte 0 to byte 1, not back to the last known-good position. -/
theorem C5_counterexample_getVlqInt_consumes :
    ((BitReader.init (fun i => if i = 0 then 128 else 0) 1).GetVlqInt.1 = none) ∧
    ((BitReader.init (fun i => if i = 0 then 128 else 0) 1).GetVlqInt.2.byte_offset = 1) := by
  refine ⟨?_, ?_⟩ <;>
    simp [BitReader.GetVlqInt, BitReader.GetVlqIntLoop, BitReader.GetAligned,
          BitReader.init, BitReader.kMaxVlqByteLength, BytesForBits, loadBytes,
          assembleBytes, storeBytes]

/-! ### Claim C6: success/failure characterisation of `GetVlqInt` -/

theorem GetVlqIntLoop_isSome_iff :
    ∀ (k i : Nat), i + k = 5 → ∀ (tmp : Nat) (r : BitReader), r.bit_offset = 0 →
      ((r.GetVlqIntLoop tmp i).1.isSome = true ↔
        ∃ j, j < k ∧ r.byte_offset + j < r.max_bytes ∧
          r.buffer (r.byte_offset + j) &&& 0x80 = 0 ∧
          ∀ l, l < j → r.buffer (r.byte_offset + l) &&& 0x80 ≠ 0) := by
  intro k
  induction k with
  | zero =>
    intro i hik tmp r h0
    have : i = 5 := by omega
    subst this
    rw [BitReader.GetVlqIntLoop, dif_neg (by norm_num [BitReader.kMaxVlqByteLength])]
    simp
  | succ k ih =>
    intro i hik tmp r h0
    rw [BitReader.GetVlqIntLoop,
        dif_pos (show i < BitReader.kMaxVlqByteLength by
          unfold BitReader.kMaxVlqByteLength; omega)]
    by_cases hin : r.byte_offset + 1 ≤ r.max_bytes
    · obtain ⟨bv1, hga⟩ := GetAligned_one_aligned h0 hin
      rw [hga]
      dsimp only
      by_cases hmsb : r.buffer r.byte_offset &&& 0x80 = 0
      · rw [if_pos hmsb]
        simp only [Option.isSome_some, true_iff]
        exact ⟨0, by omega, by omega, by simpa using hmsb, by omega⟩
      · rw [if_neg hmsb]
        rw [ih (i + 1) (by omega) _ _ rfl]
        dsimp only
        constructor
        · rintro ⟨j, hj, hjb, hjc, hjall⟩
          refine ⟨j + 1, by omega, by omega, ?_, ?_⟩
          · have : r.byte_offset + (j + 1) = r.byte_offset + 1 + j := by omega
            rw [this]
            exact hjc
          · intro l hl
            match l with
            | 0 => simpa using hmsb
            | l + 1 =>
              have : r.byte_offset + (l + 1) = r.byte_offset + 1 + l := by omega
              rw [this]
              exact hjall l (by omega)
        · rintro ⟨j, hj, hjb, hjc, hjall⟩
          match j with
          | 0 =>
            exact absurd (by simpa using hjc) hmsb
          | j + 1 =>
            refine ⟨j, by omega, by omega, ?_, ?_⟩
            · have : r.byte_offset + 1 + j = r.byte_offset + (j + 1) := by omega
              rw [this]
              exact hjc
            · intro l hl
              have : r.byte_offset + 1 + l = r.byte_offset + (l + 1) := by omega
              rw [this]
              exact hjall (l + 1) (by omega)
    · rw [GetAligned_one_fail h0 (by omega)]
      dsimp only
      constructor
      · intro hsome
        exact absurd hsome (by simp)
      · rintro ⟨j, hj, hjb, -, -⟩
        exact absurd hjb (by omega)

/-- C6: `GetVlqInt` on a byte-aligned reader succeeds iff a byte with a
clear continuation bit occurs, within the buffer, among the first 5 bytes
(equivalently, it fails iff the buffer is exhausted first or no
terminating byte occurs within 5 bytes). -/
theorem C6_getVlqInt_success_iff (r : BitReader) (h0 : r.bit_offset = 0) :
    ((r.GetVlqInt).1.isSome = true) ↔
      ∃ j, j < 5 ∧ r.byte_offset + j < r.max_bytes ∧
        r.buffer (r.byte_offset + j) &&& 0x80 = 0 ∧
        ∀ l, l < j → r.buffer (r.byte_offset + l) &&& 0x80 ≠ 0 :=
  GetVlqIntLoop_isSome_iff 5 0 rfl 0 r h0

/-- Witness for C6: a singleton zero buffer (terminator at offset 0). -/
theorem C6_getVlqInt_success_iff_witness :
    ((BitReader.init (fun _ => 0) 1).bit_offset = 0) ∧
    (((BitReader.init (fun _ => 0) 1).GetVlqInt.1.isSome = true) ↔
      ∃ j, j < 5 ∧ (BitReader.init (fun _ => 0) 1).byte_offset + j
          < (BitReader.init (fun _ => 0) 1).max_bytes ∧
        (BitReader.init (fun _ => 0) 1).buffer
            ((BitReader.init (fun _ => 0) 1).byte_offset + j) &&& 0x80 = 0 ∧
        ∀ l, l < j → (BitReader.init (fun _ => 0) 1).buffer
            ((BitReader.init (fun _ => 0) 1).byte_offset + l) &&& 0x80 ≠ 0) :=
  ⟨rfl, C6_getVlqInt_success_iff (BitReader.init (fun _ => 0) 1) rfl⟩

theorem GetVlqIntLoop_bytes :
    ∀ (m i tmp : Nat) (r : BitReader), r.bit_offset = 0 → i + m < 5 →
      (∀ l, l < m → r.buffer (r.byte_offset + l) &&& 0x80 ≠ 0) →
      r.buffer (r.byte_offset + m) &&& 0x80 = 0 →
      r.byte_offset + m + 1 ≤ r.max_bytes →
      ∃ bv, r.GetVlqIntLoop tmp i =
        (some (vlqAccum r.buffer r.byte_offset i tmp m),
         { r with byte_offset := r.byte_offset + m + 1, bit_offset := 0,
                  buffered_values := bv }) := by
  intro m
  induction m with
  | zero =>
    intro i tmp r h0 hi hset hclear hcap
    obtain ⟨bv1, hga⟩ := GetAligned_one_aligned h0 (by omega)
    refine ⟨bv1, ?_⟩
    rw [BitReader.GetVlqIntLoop,
        dif_pos (show i < BitReader.kMaxVlqByteLength by
          unfold BitReader.kMaxVlqByteLength; omega)]
    rw [hga]
    dsimp only
    rw [if_pos (by simpa using hclear)]
    rfl
  | succ m ih =>
    intro i tmp r h0 hi hset hclear hcap
    obtain ⟨bv1, hga⟩ := GetAligned_one_aligned h0 (by omega)
    rw [BitReader.GetVlqIntLoop,
        dif_pos (show i < BitReader.kMaxVlqByteLength by
          unfold BitReader.kMaxVlqByteLength; omega)]
    rw [hga]
    dsimp only
    rw [if_neg (by simpa using hset 0 (by omega))]
    have hrec := ih (i + 1)
      (tmp ||| (((r.buffer r.byte_offset &&& 0x7F) <<< (7 * i)) % 2 ^ 32))
      ({ r with byte_offset := r.byte_offset + 1, bit_offset := 0,
                buffered_values := bv1 })
      rfl (by omega)
      (by
        intro l hl
        dsimp only
        have : r.byte_offset + 1 + l = r.byte_offset + (l + 1) := by omega
        rw [this]
        exact hset (l + 1) (by omega))
      (by
        dsimp only
        have : r.byte_offset + 1 + m = r.byte_offset + (m + 1) := by omega
        rw [this]
        exact hclear)
      (by dsimp only; omega)
    obtain ⟨bv2, hrec⟩ := hrec
    dsimp only at hrec
    refine ⟨bv2, ?_⟩
    rw [hrec]
    simp only [Prod.mk.injEq, Option.some.injEq]
    constructor
    · rfl
    · ext j
      · rfl
      · rfl
      · rfl
      · dsimp only
        omega
      · rfl

/-- A masked payload is below 128. -/
theorem and_0x7F_lt (x : Nat) : x &&& 0x7F < 128 := by
  rw [and_0x7F]
  exact Nat.mod_lt x (by norm_num)

/-- C10: when `GetVlqInt` decodes a 5-byte encoding, the result is the
encoded natural number reduced modulo `2^32`: the payload bits of the
fifth byte at positions 32 and above are silently discarded. -/
theorem C10_five_byte_truncation (r : BitReader) (h0 : r.bit_offset = 0)
    (hcap : r.byte_offset + 5 ≤ r.max_bytes)
    (hset : ∀ l, l < 4 → r.buffer (r.byte_offset + l) &&& 0x80 ≠ 0)
    (hclear : r.buffer (r.byte_offset + 4) &&& 0x80 = 0) :
    (r.GetVlqInt).1 =
      some (((r.buffer r.byte_offset &&& 0x7F)
        + (r.buffer (r.byte_offset + 1) &&& 0x7F) * 2 ^ 7
        + (r.buffer (r.byte_offset + 2) &&& 0x7F) * 2 ^ 14
        + (r.buffer (r.byte_offset + 3) &&& 0x7F) * 2 ^ 21
        + (r.buffer (r.byte_offset + 4) &&& 0x7F) * 2 ^ 28) % 2 ^ 32) ∧
    (r.GetVlqInt).2.byte_offset = r.byte_offset + 5 := by
  obtain ⟨bv, hl⟩ := GetVlqIntLoop_bytes 4 0 0 r h0 (by omega) hset hclear hcap
  have hget : r.GetVlqInt = r.GetVlqIntLoop 0 0 := rfl
  rw [hget, hl]
  refine ⟨?_, rfl⟩
  simp only [Option.some.injEq]
  set c0 := r.buffer r.byte_offset &&& 0x7F with hc0
  set c1 := r.buffer (r.byte_offset + 1) &&& 0x7F with hc1
  set c2 := r.buffer (r.byte_offset + 2) &&& 0x7F with hc2
  set c3 := r.buffer (r.byte_offset + 3) &&& 0x7F with hc3
  set c4 := r.buffer (r.byte_offset + 4) &&& 0x7F with hc4
  have hb0 : c0 < 128 := and_0x7F_lt _
  have hb1 : c1 < 128 := and_0x7F_lt _
  have hb2 : c2 < 128 := and_0x7F_lt _
  have hb3 : c3 < 128 := and_0x7F_lt _
  have hb4 : c4 < 128 := and_0x7F_lt _
  show vlqAccum r.buffer r.byte_offset 0 0 4 = _
  simp only [vlqAccum]
  norm_num
  rw [← hc0, ← hc1, ← hc2, ← hc3, ← hc4]
  have m0 : c0 % 4294967296 = c0 := Nat.mod_eq_of_lt (by omega)
  have m1 : c1 <<< 7 % 4294967296 = 2 ^ 7 * c1 := by
    rw [Nat.shiftLeft_eq, Nat.mod_eq_of_lt (by omega), mul_comm]
  have m2 : c2 <<< 14 % 4294967296 = 2 ^ 14 * c2 := by
    rw [Nat.shiftLeft_eq, Nat.mod_eq_of_lt (by omega), mul_comm]
  have m3 : c3 <<< 21 % 4294967296 = 2 ^ 21 * c3 := by
    rw [Nat.shiftLeft_eq, Nat.mod_eq_of_lt (by omega), mul_comm]
  have m4 : c4 <<< 28 % 4294967296 = 2 ^ 28 * (c4 % 16) := by
    rw [Nat.shiftLeft_eq]
    have hsplit : (4294967296 : Nat) = 2 ^ 28 * 16 := by norm_num
    rw [hsplit, mul_comm c4 (2 ^ 28), Nat.mul_mod_mul_left]
  rw [m0, m1, m2, m3, m4]
  rw [lor_two_pow_mul c1 (show c0 < 2 ^ 7 by omega)]
  rw [lor_two_pow_mul c2 (show 2 ^ 7 * c1 + c0 < 2 ^ 14 by omega)]
  rw [lor_two_pow_mul c3 (show 2 ^ 14 * c2 + (2 ^ 7 * c1 + c0) < 2 ^ 21 by omega)]
  rw [lor_two_pow_mul (c4 % 16)
    (show 2 ^ 21 * c3 + (2 ^ 14 * c2 + (2 ^ 7 * c1 + c0)) < 2 ^ 28 by omega)]
  omega
/-- Witness for C10: four continuation bytes `0x80` then `0x7F`. -/
theorem C10_five_byte_truncation_witness :
    (((BitReader.init (fun i => if i < 4 then 0x80 else 0x7F) 5).bit_offset = 0) ∧
     ((BitReader.init (fun i => if i < 4 then 0x80 else 0x7F) 5).byte_offset + 5
        ≤ (BitReader.init (fun i => if i < 4 then 0x80 else 0x7F) 5).max_bytes)) ∧
    ((BitReader.init (fun i => if i < 4 then 0x80 else 0x7F) 5).GetVlqInt.1 =
      some ((((BitReader.init (fun i => if i < 4 then 0x80 else 0x7F) 5).buffer
            ((BitReader.init (fun i => if i < 4 then 0x80 else 0x7F) 5).byte_offset) &&& 0x7F)
        + ((BitReader.init (fun i => if i < 4 then 0x80 else 0x7F) 5).buffer
            ((BitReader.init (fun i => if i < 4 then 0x80 else 0x7F) 5).byte_offset + 1) &&& 0x7F) * 2 ^ 7
        + ((BitReader.init (fun i => if i < 4 then 0x80 else 0x7F) 5).buffer
            ((BitReader.init (fun i => if i < 4 then 0x80 else 0x7F) 5).byte_offset + 2) &&& 0x7F) * 2 ^ 14
        + ((BitReader.init (fun i => if i < 4 then 0x80 else 0x7F) 5).buffer
            ((BitReader.init (fun i => if i < 4 then 0x80 else 0x7F) 5).byte_offset + 3) &&& 0x7F) * 2 ^ 21
        + ((BitReader.init (fun i => if i < 4 then 0x80 else 0x7F) 5).buffer
            ((BitReader.init (fun i => if i < 4 then 0x80 else 0x7F) 5).byte_offset + 4) &&& 0x7F) * 2 ^ 28) % 2 ^ 32) ∧
     (BitReader.init (fun i => if i < 4 then 0x80 else 0x7F) 5).GetVlqInt.2.byte_offset
       = (BitReader.init (fun i => if i < 4 then 0x80 else 0x7F) 5).byte_offset + 5) :=
  ⟨⟨rfl, by decide⟩,
   C10_five_byte_truncation (BitReader.init (fun i => if i < 4 then 0x80 else 0x7F) 5)
     rfl (by decide) (by decide) (by decide)⟩

/-! ### Claim C8: concrete scenario S1 -/

/-- C8: on a fresh one-byte writer, `PutValue(5, 3); PutValue(7, 3);
Flush(false)` succeeds and leaves exactly the byte `0b00111101` (`0x3D`),
with `bytes_written() = 1`. -/
theorem C8_scenario_S1 :
    (((BitWriter.init (fun _ => 0) 1).PutValue 5 3).1 = true) ∧
    ((((BitWriter.init (fun _ => 0) 1).PutValue 5 3).2.PutValue 7 3).1 = true) ∧
    (((((BitWriter.init (fun _ => 0) 1).PutValue 5 3).2.PutValue 7 3).2.Flush
        false).buffer 0 = 0x3D) ∧
    ((((BitWriter.init (fun _ => 0) 1).PutValue 5 3).2.PutValue 7 3).2.bytes_written
      = 1) := by
  refine ⟨?_, ?_, ?_, ?_⟩ <;> decide

/-! ### Claim C9: the `GetBatch` contract (count, slots, cursor) -/

/-- One `GetValue_` step advances the bit cursor by exactly `num_bits`. -/
theorem GetValue_cursor (n max : Nat) (buf : Nat → Nat) (bo byo bv sz : Nat) :
    (detail.GetValue_ n max buf bo byo bv sz).2.2.1 * 8
        + (detail.GetValue_ n max buf bo byo bv sz).2.1
      = byo * 8 + bo + n := by
  unfold detail.GetValue_
  by_cases h : bo + n ≥ 64
  · rw [if_pos h]
    dsimp only
    omega
  · rw [if_neg h]
    dsimp only
    omega

theorem headLoop_spec (n max : Nat) (buf : Nat → Nat) (sz : Nat) :
    ∀ (k bo byo bv : Nat),
      (BitReader.headLoop n max buf sz k bo byo bv).1.length ≤ k ∧
      (BitReader.headLoop n max buf sz k bo byo bv).2.2.1 * 8
          + (BitReader.headLoop n max buf sz k bo byo bv).2.1
        = byo * 8 + bo + (BitReader.headLoop n max buf sz k bo byo bv).1.length * n := by
  intro k
  induction k with
  | zero => intro bo byo bv; exact ⟨by simp [BitReader.headLoop], by simp [BitReader.headLoop]⟩
  | succ k ih =>
    intro bo byo bv
    set s := detail.GetValue_ n max buf bo byo bv sz with hs
    rw [BitReader.headLoop]
    by_cases h0 : bo = 0
    · rw [if_pos h0]
      exact ⟨by simp, by simp⟩
    · rw [if_neg h0]
      dsimp only
      have hstep := GetValue_cursor n max buf bo byo bv sz
      rw [← hs] at hstep
      have hih := ih s.2.1 s.2.2.1 s.2.2.2
      set hl := BitReader.headLoop n max buf sz k s.2.1 s.2.2.1 s.2.2.2 with hhl
      refine ⟨?_, ?_⟩
      · simp only [List.length_cons]
        omega
      · simp only [List.length_cons]
        have h1 := hih.2
        have h2 : (hl.1.length + 1) * n = hl.1.length * n + n := by ring
        omega

theorem tailLoop_spec (n max : Nat) (buf : Nat → Nat) (sz : Nat) :
    ∀ (k bo byo bv : Nat),
      (BitReader.tailLoop n max buf sz k bo byo bv).1.length = k ∧
      (BitReader.tailLoop n max buf sz k bo byo bv).2.2.1 * 8
          + (BitReader.tailLoop n max buf sz k bo byo bv).2.1
        = byo * 8 + bo + k * n := by
  intro k
  induction k with
  | zero => intro bo byo bv; exact ⟨by simp [BitReader.tailLoop], by simp [BitReader.tailLoop]⟩
  | succ k ih =>
    intro bo byo bv
    set s := detail.GetValue_ n max buf bo byo bv sz with hs
    rw [BitReader.tailLoop]
    dsimp only
    have hstep := GetValue_cursor n max buf bo byo bv sz
    rw [← hs] at hstep
    have hih := ih s.2.1 s.2.2.1 s.2.2.2
    set tl := BitReader.tailLoop n max buf sz k s.2.1 s.2.2.1 s.2.2.2 with htl
    refine ⟨?_, ?_⟩
    · simp only [List.length_cons]
      omega
    · have h1 := hih.2
      have h2 : (k + 1) * n = k * n + n := by ring
      omega

theorem unpack32_length (buf : Nat → Nat) (byo count n : Nat) :
    (internal.unpack32 buf byo count n).1.length = (internal.unpack32 buf byo count n).2
      ∧ (internal.unpack32 buf byo count n).2 ≤ count
      ∧ (internal.unpack32 buf byo count n).2 % 32 = 0 := by
  unfold internal.unpack32
  dsimp only
  refine ⟨by simp, ?_, by omega⟩
  calc 32 * (count / 32) ≤ count / 32 * 32 := by omega
    _ ≤ count := Nat.div_mul_le_self _ _

theorem packLoop_spec (buf : Nat → Nat) (n sz : Nat) :
    ∀ (rem byo : Nat),
      (BitReader.packLoop buf n sz rem byo).1.length ≤ rem ∧
      (BitReader.packLoop buf n sz rem byo).2 * 8
        = byo * 8 + (BitReader.packLoop buf n sz rem byo).1.length * n := by
  intro rem
  induction rem using Nat.strong_induction_on with
  | _ rem ih =>
    intro byo
    rw [BitReader.packLoop]
    by_cases h : rem = 0
    · rw [dif_pos h]
      exact ⟨by simp, by simp⟩
    · rw [dif_neg h]
      dsimp only
      set u := internal.unpack32 buf byo (min 1024 rem) n with hu_def
      have hu := unpack32_length buf byo (min 1024 rem) n
      rw [← hu_def] at hu
      by_cases h2 : u.2 = 0
      · rw [dif_pos h2]
        exact ⟨by simp, by simp⟩
      · rw [dif_neg h2]
        dsimp only
        have hle : u.2 ≤ rem := le_trans hu.2.1 (Nat.min_le_right _ _)
        obtain ⟨q, hq⟩ : ∃ q, u.2 = 32 * q := ⟨u.2 / 32, by omega⟩
        have hdvd : u.2 * n / 8 * 8 = u.2 * n := by
          rw [hq]
          have h8 : 32 * q * n = 8 * (4 * q * n) := by ring
          rw [h8]
          omega
        set pl := BitReader.packLoop buf n sz (rem - u.2) (byo + u.2 * n / 8) with hpl_def
        have hih := ih (rem - u.2) (by omega) (byo + u.2 * n / 8)
        rw [← hpl_def] at hih
        have hlen : (u.1.map (· % 2 ^ (8 * sz))).length = u.2 := by
          rw [List.length_map, hu.1]
        refine ⟨?_, ?_⟩
        · simp only [List.length_append]
          rw [hlen]
          omega
        · simp only [List.length_append]
          rw [hlen]
          have h1 := hih.2
          have h2d : (byo + u.2 * n / 8) * 8 = byo * 8 + u.2 * n := by omega
          have h3 : (u.2 + pl.1.length) * n = u.2 * n + pl.1.length * n := by ring
          omega

/-- Count, slot and cursor bookkeeping of `GetBatch` (shared helper). -/
theorem GetBatch_counts (r : BitReader) (num_bits batch_size sizeT : Nat)
    (hn1 : 1 ≤ num_bits) (hn32 : num_bits ≤ 32) (hszn : num_bits ≤ 8 * sizeT)
    (hpos : r.byte_offset * 8 + r.bit_offset ≤ r.max_bytes * 8) :
    (r.GetBatch num_bits batch_size sizeT).1
      = min batch_size
          ((r.max_bytes * 8 - (r.byte_offset * 8 + r.bit_offset)) / num_bits) ∧
    (r.GetBatch num_bits batch_size sizeT).2.1.length
      = (r.GetBatch num_bits batch_size sizeT).1 ∧
    (r.GetBatch num_bits batch_size sizeT).2.2.byte_offset * 8
        + (r.GetBatch num_bits batch_size sizeT).2.2.bit_offset
      = r.byte_offset * 8 + r.bit_offset
        + (r.GetBatch num_bits batch_size sizeT).1 * num_bits := by
  unfold BitReader.GetBatch
  dsimp only
  have hbyo : r.byte_offset ≤ r.max_bytes := by omega
  set R := (r.max_bytes - r.byte_offset) * 8 - r.bit_offset with hR
  have hReq : R = r.max_bytes * 8 - (r.byte_offset * 8 + r.bit_offset) := by
    rw [hR]
    omega
  set B := if R < num_bits * batch_size then R / num_bits else batch_size with hB
  have hcomm : num_bits * batch_size = batch_size * num_bits := Nat.mul_comm _ _
  have hBmin : B = min batch_size (R / num_bits) := by
    rw [hB]
    by_cases hc : R < num_bits * batch_size
    · rw [if_pos hc]
      have hlt : R / num_bits < batch_size := by
        rw [Nat.div_lt_iff_lt_mul hn1]
        omega
      omega
    · rw [if_neg hc]
      have hge : batch_size ≤ R / num_bits := by
        rw [Nat.le_div_iff_mul_le hn1]
        omega
      omega
  have hH := headLoop_spec num_bits r.max_bytes r.buffer sizeT B r.bit_offset
    r.byte_offset r.buffered_values
  set H := BitReader.headLoop num_bits r.max_bytes r.buffer sizeT B r.bit_offset
    r.byte_offset r.buffered_values with hHdef
  set P := if sizeT = 4 then
      ((internal.unpack32 r.buffer H.2.2.1 (B - H.1.length) num_bits).1,
        H.2.2.1 + (internal.unpack32 r.buffer H.2.2.1 (B - H.1.length) num_bits).2
          * num_bits / 8)
    else BitReader.packLoop r.buffer num_bits sizeT (B - H.1.length) H.2.2.1
    with hPdef
  have hP : P.1.length ≤ B - H.1.length ∧
      P.2 * 8 = H.2.2.1 * 8 + P.1.length * num_bits := by
    rw [hPdef]
    by_cases hsz : sizeT = 4
    · rw [if_pos hsz]
      dsimp only
      have hu := unpack32_length r.buffer H.2.2.1 (B - H.1.length) num_bits
      obtain ⟨q, hq⟩ : ∃ q, (internal.unpack32 r.buffer H.2.2.1 (B - H.1.length)
          num_bits).2 = 32 * q :=
        ⟨(internal.unpack32 r.buffer H.2.2.1 (B - H.1.length) num_bits).2 / 32,
         by omega⟩
      have hdvd : (internal.unpack32 r.buffer H.2.2.1 (B - H.1.length) num_bits).2
          * num_bits / 8 * 8
          = (internal.unpack32 r.buffer H.2.2.1 (B - H.1.length) num_bits).2
            * num_bits := by
        rw [hq]
        have h8 : 32 * q * num_bits = 8 * (4 * q * num_bits) := by ring
        rw [h8]
        omega
      have hk : (internal.unpack32 r.buffer H.2.2.1 (B - H.1.length) num_bits).1.length
          * num_bits
          = (internal.unpack32 r.buffer H.2.2.1 (B - H.1.length) num_bits).2
            * num_bits := by
        rw [hu.1]
      refine ⟨by omega, by omega⟩
    · rw [if_neg hsz]
      exact packLoop_spec r.buffer num_bits sizeT (B - H.1.length) H.2.2.1
  have hT := tailLoop_spec num_bits r.max_bytes r.buffer sizeT
    (B - H.1.length - P.1.length) H.2.1 P.2
    (if r.max_bytes - P.2 ≥ 8 then loadBytes r.buffer P.2 8 H.2.2.2
     else loadBytes r.buffer P.2 (r.max_bytes - P.2) H.2.2.2)
  set T := BitReader.tailLoop num_bits r.max_bytes r.buffer sizeT
    (B - H.1.length - P.1.length) H.2.1 P.2
    (if r.max_bytes - P.2 ≥ 8 then loadBytes r.buffer P.2 8 H.2.2.2
     else loadBytes r.buffer P.2 (r.max_bytes - P.2) H.2.2.2) with hTdef
  refine ⟨by rw [hBmin, hReq], ?_, ?_⟩
  · simp only [List.length_append]
    have h1 := hH.1
    have h2 := hP.1
    have h3 := hT.1
    omega
  · dsimp only
    have hcH := hH.2
    have hcP := hP.2
    have hcT := hT.2
    have hsum : H.1.length + P.1.length + (B - H.1.length - P.1.length) = B := by
      have := hH.1
      have := hP.1
      omega
    have hmul : H.1.length * num_bits + P.1.length * num_bits
        + (B - H.1.length - P.1.length) * num_bits = B * num_bits := by
      have h4 : (H.1.length + P.1.length + (B - H.1.length - P.1.length)) * num_bits
          = B * num_bits := by rw [hsum]
      have h5 : (H.1.length + P.1.length + (B - H.1.length - P.1.length)) * num_bits
          = H.1.length * num_bits + P.1.length * num_bits
            + (B - H.1.length - P.1.length) * num_bits := by
        rw [Nat.add_mul, Nat.add_mul]
      omega
    omega

/-- C9: `GetBatch(num_bits, out, batch_size)` returns exactly
`min(batch_size, R / num_bits)` where `R` is the number of bits remaining,
fills exactly that many output slots, and advances the cursor by exactly
that many values times `num_bits` bits. -/
theorem C9_getBatch_contract (r : BitReader) (num_bits batch_size sizeT : Nat)
    (hn1 : 1 ≤ num_bits) (hn32 : num_bits ≤ 32) (hszn : num_bits ≤ 8 * sizeT)
    (hpos : r.byte_offset * 8 + r.bit_offset ≤ r.max_bytes * 8) :
    (r.GetBatch num_bits batch_size sizeT).1
      = min batch_size
          ((r.max_bytes * 8 - (r.byte_offset * 8 + r.bit_offset)) / num_bits) ∧
    (r.GetBatch num_bits batch_size sizeT).2.1.length
      = (r.GetBatch num_bits batch_size sizeT).1 ∧
    (r.GetBatch num_bits batch_size sizeT).2.2.byte_offset * 8
        + (r.GetBatch num_bits batch_size sizeT).2.2.bit_offset
      = r.byte_offset * 8 + r.bit_offset
        + (r.GetBatch num_bits batch_size sizeT).1 * num_bits :=
  GetBatch_counts r num_bits batch_size sizeT hn1 hn32 hszn hpos

/-- Witness for C9: a fresh 2-byte reader, 3-bit values, batch of 4. -/
theorem C9_getBatch_contract_witness :
    ((1 ≤ 3 ∧ 3 ≤ 32 ∧ 3 ≤ 8 * 4) ∧
     (BitReader.init (fun _ => 0) 2).byte_offset * 8
        + (BitReader.init (fun _ => 0) 2).bit_offset
       ≤ (BitReader.init (fun _ => 0) 2).max_bytes * 8) ∧
    (((BitReader.init (fun _ => 0) 2).GetBatch 3 4 4).1
       = min 4 (((BitReader.init (fun _ => 0) 2).max_bytes * 8
           - ((BitReader.init (fun _ => 0) 2).byte_offset * 8
              + (BitReader.init (fun _ => 0) 2).bit_offset)) / 3) ∧
     ((BitReader.init (fun _ => 0) 2).GetBatch 3 4 4).2.1.length
       = ((BitReader.init (fun _ => 0) 2).GetBatch 3 4 4).1 ∧
     ((BitReader.init (fun _ => 0) 2).GetBatch 3 4 4).2.2.byte_offset * 8
        + ((BitReader.init (fun _ => 0) 2).GetBatch 3 4 4).2.2.bit_offset
       = (BitReader.init (fun _ => 0) 2).byte_offset * 8
          + (BitReader.init (fun _ => 0) 2).bit_offset
          + ((BitReader.init (fun _ => 0) 2).GetBatch 3 4 4).1 * 3) :=
  ⟨⟨⟨by norm_num, by norm_num, by norm_num⟩, by decide⟩,
   C9_getBatch_contract (BitReader.init (fun _ => 0) 2) 3 4 4
     (by norm_num) (by norm_num) (by norm_num) (by decide)⟩

theorem streamVal_lt (ps : List (Nat × Nat))
    (h : ∀ p ∈ ps, p.1 < 2 ^ p.2) : streamVal ps < 2 ^ sumBits ps := by
  induction ps with
  | nil => simp [streamVal, sumBits]
  | cons p ps ih =>
    simp only [streamVal, sumBits]
    have h1 : p.1 < 2 ^ p.2 := h p (by simp)
    have h2 : streamVal ps < 2 ^ sumBits ps := ih (fun q hq => h q (by simp [hq]))
    calc p.1 + 2 ^ p.2 * streamVal ps
        < 2 ^ p.2 + 2 ^ p.2 * streamVal ps := by omega
      _ = 2 ^ p.2 * (streamVal ps + 1) := by ring
      _ ≤ 2 ^ p.2 * 2 ^ sumBits ps := Nat.mul_le_mul_left _ (by omega)
      _ = 2 ^ (p.2 + sumBits ps) := by rw [← pow_add]

theorem assembleBytes_lt {buf : Nat → Nat} (hb : ∀ i, buf i < 256) :
    ∀ (m o : Nat), assembleBytes buf o m < 2 ^ (8 * m) := by
  intro m
  induction m with
  | zero => intro o; simp [assembleBytes]
  | succ m ih =>
    intro o
    simp only [assembleBytes]
    have h1 := hb o
    have h2 := ih (o + 1)
    have h3 : 2 ^ (8 * (m + 1)) = 256 * 2 ^ (8 * m) := by
      rw [show 8 * (m + 1) = 8 + 8 * m by omega, pow_add]
      norm_num
    omega

theorem testBit_assembleBytes {buf : Nat → Nat} (hb : ∀ i, buf i < 256) :
    ∀ (m o j : Nat),
      (assembleBytes buf o m).testBit j
        = (decide (j < 8 * m) && (buf (o + j / 8)).testBit (j % 8)) := by
  intro m
  induction m with
  | zero =>
    intro o j
    simp [assembleBytes, Nat.zero_testBit]
  | succ m ih =>
    intro o j
    have hsplit : assembleBytes buf o (m + 1) = 2 ^ 8 * assembleBytes buf (o + 1) m + buf o := by
      simp only [assembleBytes]
      ring
    rw [hsplit, Nat.testBit_mul_pow_two_add _ (hb o)]
    by_cases hj : j < 8
    · rw [if_pos hj]
      have h1 : j / 8 = 0 := Nat.div_eq_of_lt hj
      have h2 : j % 8 = j := Nat.mod_eq_of_lt hj
      rw [h1, h2]
      simp only [Nat.add_zero]
      have : j < 8 * (m + 1) := by omega
      simp [this]
    · rw [if_neg hj]
      rw [ih (o + 1) (j - 8)]
      have h1 : (j - 8) / 8 = j / 8 - 1 := by omega
      have h2 : (j - 8) % 8 = j % 8 := by omega
      have h3 : o + 1 + (j - 8) / 8 = o + j / 8 := by omega
      rw [h1, h2]
      have h4 : o + 1 + (j / 8 - 1) = o + j / 8 := by omega
      rw [h4]
      by_cases h5 : j - 8 < 8 * m
      · simp [h5, show j < 8 * (m + 1) by omega]
      · simp [h5, show ¬ j < 8 * (m + 1) by omega]

theorem loadBytes_lt {buf : Nat → Nat} (hb : ∀ i, buf i < 256)
    {old : Nat} (hold : old < 2 ^ 64) (o m : Nat) (hm : m ≤ 8) :
    loadBytes buf o m old < 2 ^ 64 := by
  unfold loadBytes
  rw [Nat.shiftRight_eq_div_pow, Nat.shiftLeft_eq]
  have h1 := assembleBytes_lt hb m o
  have hq : old / 2 ^ (8 * m) < 2 ^ (64 - 8 * m) := by
    rw [Nat.div_lt_iff_lt_mul (by positivity)]
    calc old < 2 ^ 64 := hold
      _ = 2 ^ (64 - 8 * m) * 2 ^ (8 * m) := by rw [← pow_add]; congr 1; omega
  have hmul : (old / 2 ^ (8 * m) + 1) * 2 ^ (8 * m) ≤ 2 ^ (64 - 8 * m) * 2 ^ (8 * m) :=
    Nat.mul_le_mul_right _ (by omega)
  have hpow : 2 ^ (64 - 8 * m) * 2 ^ (8 * m) = 2 ^ 64 := by
    rw [← pow_add]; congr 1; omega
  have hexp : (old / 2 ^ (8 * m) + 1) * 2 ^ (8 * m)
      = old / 2 ^ (8 * m) * 2 ^ (8 * m) + 2 ^ (8 * m) := by ring
  omega

theorem testBit_loadBytes {buf : Nat → Nat} (hb : ∀ i, buf i < 256)
    (old o m j : Nat) (hj : j < 8 * m) :
    (loadBytes buf o m old).testBit j = (buf (o + j / 8)).testBit (j % 8) := by
  unfold loadBytes
  rw [Nat.shiftRight_eq_div_pow, Nat.shiftLeft_eq]
  have hassem := assembleBytes_lt hb m o
  have hsplit : assembleBytes buf o m + old / 2 ^ (8 * m) * 2 ^ (8 * m)
      = 2 ^ (8 * m) * (old / 2 ^ (8 * m)) + assembleBytes buf o m := by ring
  rw [hsplit, Nat.testBit_mul_pow_two_add _ hassem]
  rw [if_pos hj]
  rw [testBit_assembleBytes hb]
  simp [hj]

/-- Peeling a modulus before a division: the bits `[a, a+b)` of `x`. -/
theorem mod_pow_div (x a b : Nat) :
    x % 2 ^ (a + b) / 2 ^ a = x / 2 ^ a % 2 ^ b := by
  apply Nat.eq_of_testBit_eq
  intro j
  rw [show x % 2 ^ (a + b) / 2 ^ a = (x % 2 ^ (a + b)) >>> a from
        by rw [Nat.shiftRight_eq_div_pow],
      show x / 2 ^ a = x >>> a from by rw [Nat.shiftRight_eq_div_pow],
      Nat.testBit_shiftRight, Nat.testBit_mod_two_pow, Nat.testBit_mod_two_pow,
      Nat.testBit_shiftRight]
  by_cases h : j < b
  · simp [h, show a + j < a + b by omega]
  · simp [h, show ¬ a + j < a + b by omega]

/-- Bit `t` of byte `i` of `S` is bit `8*i + t` of `S`. -/
theorem byte_testBit (S i t : Nat) (ht : t < 8) :
    (S / 2 ^ (8 * i) % 256).testBit t = S.testBit (8 * i + t) := by
  rw [show (256 : Nat) = 2 ^ 8 from by norm_num, Nat.testBit_mod_two_pow,
      show S / 2 ^ (8 * i) = S >>> (8 * i) from by rw [Nat.shiftRight_eq_div_pow],
      Nat.testBit_shiftRight]
  simp [ht]

/-- The 64-bit truncated left shift splits the shifted value. -/
theorem shl_mod64 (v b : Nat) (h : b ≤ 64) :
    v <<< b % 2 ^ 64 = 2 ^ b * (v % 2 ^ (64 - b)) := by
  rw [Nat.shiftLeft_eq,
      show (2 : Nat) ^ 64 = 2 ^ (64 - b) * 2 ^ b from by rw [← pow_add]; congr 1; omega,
      Nat.mul_mod_mul_right]
  ring

/-- Bytes strictly below bit `N` of `S` are unchanged by adding `2 ^ N * v`. -/
theorem byte_stable {N i : Nat} (S v : Nat) (h : 8 * i + 8 ≤ N) :
    (S + 2 ^ N * v) / 2 ^ (8 * i) % 256 = S / 2 ^ (8 * i) % 256 := by
  have hN : (2 : Nat) ^ N * v = 2 ^ (8 * i) * (256 * (2 ^ (N - (8 * i + 8)) * v)) := by
    obtain ⟨r, hr⟩ : ∃ r, N = 8 * i + 8 + r := ⟨N - (8 * i + 8), by omega⟩
    subst hr
    rw [show 8 * i + 8 + r - (8 * i + 8) = r from by omega,
        show (256 : Nat) = 2 ^ 8 from by norm_num, pow_add, pow_add]
    ring
  rw [hN, Nat.add_mul_div_left _ _ (by positivity), Nat.add_mul_mod_self_left]

theorem WRep_init (buf0 : Nat → Nat) (cap : Nat) :
    WRep buf0 cap 0 0 (BitWriter.init buf0 cap) := by
  refine ⟨rfl, by simp [BitWriter.init], by simp [BitWriter.init],
    by simp [BitWriter.init], ?_, fun i _ => rfl⟩
  intro i hi
  exact absurd hi (by norm_num)

/-- One `PutValue` call preserves the writer representation invariant and
succeeds whenever the declared capacity has room for the new bits. -/
theorem PutValue_step {buf0 : Nat → Nat} {cap S N : Nat} {w : BitWriter}
    (hw : WRep buf0 cap S N w) (hS : S < 2 ^ N)
    (v n : Nat) (hv : v < 2 ^ n) (hn : n ≤ 32) (hsp : N + n ≤ cap * 8) :
    (w.PutValue v n).1 = true ∧
    WRep buf0 cap (S + 2 ^ N * v) (N + n) (w.PutValue v n).2 := by
  obtain ⟨hmax, hbyo, hbo, hbv, hlow, hhigh⟩ := hw
  obtain ⟨q, b, rfl, hblt⟩ : ∃ q b, N = 64 * q + b ∧ b < 64 :=
    ⟨N / 64, N % 64, by omega, by omega⟩
  have hq : (64 * q + b) / 64 = q := by omega
  have hb : (64 * q + b) % 64 = b := by omega
  rw [hq] at hbyo hbv hlow hhigh
  rw [hb] at hbo
  unfold BitWriter.PutValue
  rw [hbyo, hbo, hbv, hmax]
  rw [if_neg (by omega)]
  dsimp only
  have hsm : v <<< b % 2 ^ 64 = 2 ^ b * (v % 2 ^ (64 - b)) := shl_mod64 v b (by omega)
  have hdivlt : S / 2 ^ (64 * q) < 2 ^ b := by
    rw [Nat.div_lt_iff_lt_mul (by positivity)]
    calc S < 2 ^ (64 * q + b) := hS
      _ = 2 ^ b * 2 ^ (64 * q) := by rw [← pow_add]; congr 1; omega
  have hor : S / 2 ^ (64 * q) ||| v <<< b % 2 ^ 64
      = 2 ^ b * (v % 2 ^ (64 - b)) + S / 2 ^ (64 * q) := by
    rw [hsm]
    exact lor_two_pow_mul _ hdivlt
  have h2N : (2 : Nat) ^ (64 * q + b) * v = 2 ^ (64 * q) * (2 ^ b * v) := by
    rw [pow_add, Nat.mul_assoc]
  have hSdiv : (S + 2 ^ (64 * q + b) * v) / 2 ^ (64 * q)
      = S / 2 ^ (64 * q) + 2 ^ b * v := by
    rw [h2N]
    exact Nat.add_mul_div_left _ _ (by positivity)
  by_cases hcr : b + n ≥ 64
  · rw [if_pos hcr]
    dsimp only
    have hq1 : (64 * q + b + n) / 64 = q + 1 := by omega
    have hbb : (2 : Nat) ^ b * 2 ^ (64 - b) = 2 ^ 64 := by rw [← pow_add]; congr 1; omega
    have hmlt : v % 2 ^ (64 - b) < 2 ^ (64 - b) := Nat.mod_lt _ (by positivity)
    have hlowlt : S / 2 ^ (64 * q) + 2 ^ b * (v % 2 ^ (64 - b)) < 2 ^ 64 := by
      have h2 : 2 ^ b * (v % 2 ^ (64 - b)) + 2 ^ b ≤ 2 ^ b * 2 ^ (64 - b) := by
        have h3 := Nat.mul_le_mul_left (2 ^ b)
          (show v % 2 ^ (64 - b) + 1 ≤ 2 ^ (64 - b) by omega)
        calc 2 ^ b * (v % 2 ^ (64 - b)) + 2 ^ b
            = 2 ^ b * (v % 2 ^ (64 - b) + 1) := by ring
          _ ≤ 2 ^ b * 2 ^ (64 - b) := h3
      omega
    have hvdm := Nat.div_add_mod v (2 ^ (64 - b))
    have hsplit : 2 ^ b * v
        = 2 ^ b * (v % 2 ^ (64 - b)) + 2 ^ 64 * (v / 2 ^ (64 - b)) := by
      have h1 : 2 ^ b * (2 ^ (64 - b) * (v / 2 ^ (64 - b)) + v % 2 ^ (64 - b))
          = 2 ^ b * (v % 2 ^ (64 - b)) + 2 ^ b * 2 ^ (64 - b) * (v / 2 ^ (64 - b)) := by
        ring
      rw [hvdm] at h1
      rw [h1, hbb]
    have hdec : S / 2 ^ (64 * q) + 2 ^ b * v
        = S / 2 ^ (64 * q) + 2 ^ b * (v % 2 ^ (64 - b)) + 2 ^ 64 * (v / 2 ^ (64 - b)) := by
      omega
    refine ⟨rfl, ?_⟩
    unfold WRep
    dsimp only
    refine ⟨rfl, by omega, by omega, ?_, ?_, ?_⟩
    · rw [hq1]
      have h64b : n - (b + n - 64) = 64 - b := by omega
      rw [h64b, Nat.shiftRight_eq_div_pow]
      have hvlt : v / 2 ^ (64 - b) < 2 ^ 64 :=
        lt_of_le_of_lt (Nat.div_le_self _ _)
          (lt_of_lt_of_le hv (Nat.pow_le_pow_right (by norm_num) (by omega)))
      rw [Nat.mod_eq_of_lt hvlt,
          show (2 : Nat) ^ (64 * (q + 1)) = 2 ^ (64 * q) * 2 ^ 64 from by
            rw [show 64 * (q + 1) = 64 * q + 64 from by ring, pow_add],
          ← Nat.div_div_eq_div_mul, hSdiv, hdec,
          Nat.add_mul_div_left _ _ (show (0 : Nat) < 2 ^ 64 by positivity),
          Nat.div_eq_of_lt hlowlt, Nat.zero_add]
    · intro i hi
      rw [hq1] at hi
      rw [hor]
      by_cases hilt : i < 8 * q
      · rw [storeBytes_outside _ _ (Or.inl hilt), hlow i hilt]
        exact (byte_stable S v (by omega)).symm
      · rw [storeBytes_inside _ _ (by omega) (by omega)]
        obtain ⟨k, rfl, hklt⟩ : ∃ k, i = 8 * q + k ∧ k < 8 :=
          ⟨i - 8 * q, by omega, by omega⟩
        have hM : 2 ^ b * (v % 2 ^ (64 - b)) + S / 2 ^ (64 * q)
            = (S + 2 ^ (64 * q + b) * v) / 2 ^ (64 * q) % 2 ^ 64 := by
          rw [hSdiv, hdec, Nat.add_mul_mod_self_left, Nat.mod_eq_of_lt hlowlt]
          omega
        rw [show (8 * q + k - 8 * q) * 8 = 8 * k from by omega, hM]
        have h1 := mod_pow_div ((S + 2 ^ (64 * q + b) * v) / 2 ^ (64 * q))
          (8 * k) (64 - 8 * k)
        rw [show 8 * k + (64 - 8 * k) = 64 from by omega] at h1
        rw [h1, Nat.mod_mod_of_dvd _ (by
              rw [show (256 : Nat) = 2 ^ 8 from by norm_num]
              exact pow_dvd_pow 2 (by omega)),
            Nat.div_div_eq_div_mul, ← pow_add,
            show 64 * q + 8 * k = 8 * (8 * q + k) from by omega]
    · intro i hi
      rw [hq1] at hi
      rw [storeBytes_outside _ _ (Or.inr (by omega))]
      exact hhigh i (by omega)
  · rw [if_neg hcr]
    dsimp only
    have hq0 : (64 * q + b + n) / 64 = q := by omega
    have hb0 : (64 * q + b + n) % 64 = b + n := by omega
    refine ⟨rfl, ?_⟩
    unfold WRep
    dsimp only
    refine ⟨rfl, by omega, by rw [hb0], ?_, ?_, ?_⟩
    · rw [hq0, hor, hSdiv]
      have hvm : v % 2 ^ (64 - b) = v :=
        Nat.mod_eq_of_lt (lt_of_lt_of_le hv (Nat.pow_le_pow_right (by norm_num) (by omega)))
      rw [hvm]
      omega
    · intro i hi
      rw [hq0] at hi
      rw [hlow i hi]
      exact (byte_stable S v (by omega)).symm
    · intro i hi
      rw [hq0] at hi
      exact hhigh i hi

/-- Writing a whole sequence of in-range values succeeds and leaves the
writer representing the concatenated stream. -/
theorem writeAll_spec (buf0 : Nat → Nat) (cap : Nat) :
    ∀ (ps : List (Nat × Nat)) (S N : Nat) (w : BitWriter),
      WRep buf0 cap S N w → S < 2 ^ N →
      (∀ p ∈ ps, 1 ≤ p.2 ∧ p.2 ≤ 32 ∧ p.1 < 2 ^ p.2) →
      N + sumBits ps ≤ cap * 8 →
      (writeAll w ps).1 = true ∧
      WRep buf0 cap (S + 2 ^ N * streamVal ps) (N + sumBits ps) (writeAll w ps).2 := by
  intro ps
  induction ps with
  | nil =>
    intro S N w hw hS _ _
    refine ⟨rfl, ?_⟩
    simpa [writeAll, streamVal, sumBits] using hw
  | cons p ps ih =>
    intro S N w hw hS hps hsp
    simp only [sumBits] at hsp
    have hp := hps p (by simp)
    have hstep := PutValue_step hw hS p.1 p.2 hp.2.2 hp.2.1 (by omega)
    have hS1 : S + 2 ^ N * p.1 < 2 ^ (N + p.2) := by
      have h1 : p.1 + 1 ≤ 2 ^ p.2 := hp.2.2
      have h2 : 2 ^ N * (p.1 + 1) ≤ 2 ^ N * 2 ^ p.2 := Nat.mul_le_mul_left _ h1
      have h3 : (2 : Nat) ^ N * 2 ^ p.2 = 2 ^ (N + p.2) := (pow_add 2 N p.2).symm
      have h4 : 2 ^ N * (p.1 + 1) = 2 ^ N * p.1 + 2 ^ N := by ring
      have h5 : (0 : Nat) < 2 ^ N := by positivity
      omega
    have hih := ih (S + 2 ^ N * p.1) (N + p.2) (w.PutValue p.1 p.2).2 hstep.2 hS1
      (fun r hr => hps r (by simp [hr])) (by omega)
    simp only [writeAll]
    refine ⟨by rw [hstep.1, hih.1]; rfl, ?_⟩
    have hval : S + 2 ^ N * streamVal (p :: ps)
        = S + 2 ^ N * p.1 + 2 ^ (N + p.2) * streamVal ps := by
      simp only [streamVal]
      rw [pow_add]
      ring
    have hsum : N + sumBits (p :: ps) = N + p.2 + sumBits ps := by
      simp only [sumBits]
      ring
    rw [hval, hsum]
    exact hih.2

/-- `Flush(false)` exposes the whole stream as bytes: byte `i` of the output
buffer is byte `i` of the stream value for every flushed position, the rest
of the buffer is untouched, and `bytes_written()` is the byte-rounded-up
stream length. -/
theorem Flush_false_bytes {buf0 : Nat → Nat} {cap S N : Nat} {w : BitWriter}
    (hw : WRep buf0 cap S N w) :
    (∀ i, i < (N + 7) / 8 → (w.Flush false).buffer i = S / 2 ^ (8 * i) % 256) ∧
    (∀ i, (N + 7) / 8 ≤ i → (w.Flush false).buffer i = buf0 i) ∧
    w.bytes_written = (N + 7) / 8 := by
  obtain ⟨hmax, hbyo, hbo, hbv, hlow, hhigh⟩ := hw
  obtain ⟨q, b, rfl, hblt⟩ : ∃ q b, N = 64 * q + b ∧ b < 64 :=
    ⟨N / 64, N % 64, by omega, by omega⟩
  have hq : (64 * q + b) / 64 = q := by omega
  have hb : (64 * q + b) % 64 = b := by omega
  rw [hq] at hbyo hbv hlow hhigh
  rw [hb] at hbo
  have hbw : w.bytes_written = (64 * q + b + 7) / 8 := by
    unfold BitWriter.bytes_written
    rw [hbyo, hbo, BytesForBits_eq]
    omega
  refine ⟨?_, ?_, hbw⟩
  · intro i hi
    unfold BitWriter.Flush
    rw [if_neg (by simp)]
    dsimp only
    rw [hbyo, hbo, hbv, BytesForBits_eq]
    by_cases hilt : i < 8 * q
    · rw [storeBytes_outside _ _ (Or.inl hilt)]
      exact hlow i hilt
    · rw [storeBytes_inside _ _ (by omega) (by omega)]
      obtain ⟨k, rfl, hklt⟩ : ∃ k, i = 8 * q + k ∧ k < (b + 7) / 8 :=
        ⟨i - 8 * q, by omega, by omega⟩
      rw [show (8 * q + k - 8 * q) * 8 = 8 * k from by omega,
          Nat.div_div_eq_div_mul, ← pow_add,
          show 64 * q + 8 * k = 8 * (8 * q + k) from by omega]
  · intro i hi
    unfold BitWriter.Flush
    rw [if_neg (by simp)]
    dsimp only
    rw [hbyo, hbo, BytesForBits_eq]
    rw [storeBytes_outside _ _ (Or.inr (by omega))]
    exact hhigh i (by omega)

/-- The window-refill step of `GetAligned`/`GetValue_`/`GetBatch` always
produces a valid window. -/
theorem reload_WindowOk {buf : Nat → Nat} (hb : ∀ i, buf i < 256) {old : Nat}
    (hold : old < 2 ^ 64) (cap byo : Nat) :
    WindowOk buf cap byo
      (if cap - byo ≥ 8 then loadBytes buf byo 8 old
       else loadBytes buf byo (cap - byo) old) := by
  by_cases h : cap - byo ≥ 8
  · rw [if_pos h]
    refine ⟨loadBytes_lt hb hold byo 8 (by norm_num), ?_⟩
    intro j hj
    exact testBit_loadBytes hb old byo 8 j (by omega)
  · rw [if_neg h]
    refine ⟨loadBytes_lt hb hold byo (cap - byo) (by omega), ?_⟩
    intro j hj
    exact testBit_loadBytes hb old byo (cap - byo) j (by omega)

/-- `streamBit` is the indicator of the corresponding byte bit. -/
theorem streamBit_eq (buf : Nat → Nat) (p : Nat) :
    streamBit buf p = ((buf (p / 8)).testBit (p % 8)).toNat := by
  unfold streamBit
  rw [Nat.and_one_is_mod, Nat.shiftRight_eq_div_pow, Nat.testBit_to_div_mod]
  rcases Nat.mod_two_eq_zero_or_one (buf (p / 8) / 2 ^ (p % 8)) with h | h <;> simp [h]

theorem bitsAt_lt (buf : Nat → Nat) : ∀ (n pos : Nat), bitsAt buf pos n < 2 ^ n := by
  intro n
  induction n with
  | zero => intro pos; simp [bitsAt]
  | succ n ih =>
    intro pos
    simp only [bitsAt]
    have h1 := ih (pos + 1)
    have hsb : streamBit buf pos ≤ 1 := by
      rw [streamBit_eq]
      rcases (buf (pos / 8)).testBit (pos % 8) <;> simp
    have h2 : (2 : Nat) ^ (n + 1) = 2 * 2 ^ n := by ring
    omega

/-- Bit `t` of the `n` stream bits starting at `pos`. -/
theorem testBit_bitsAt (buf : Nat → Nat) : ∀ (n pos t : Nat),
    (bitsAt buf pos n).testBit t
      = (decide (t < n) && (buf ((pos + t) / 8)).testBit ((pos + t) % 8)) := by
  intro n
  induction n with
  | zero => intro pos t; simp [bitsAt, Nat.zero_testBit]
  | succ n ih =>
    intro pos t
    have hsb : streamBit buf pos < 2 ^ 1 := by
      rw [streamBit_eq]
      rcases (buf (pos / 8)).testBit (pos % 8) <;> simp
    have hsplit : bitsAt buf pos (n + 1)
        = 2 ^ 1 * bitsAt buf (pos + 1) n + streamBit buf pos := by
      simp only [bitsAt]
      ring
    rw [hsplit, Nat.testBit_mul_pow_two_add _ hsb]
    by_cases ht : t < 1
    · have ht0 : t = 0 := by omega
      subst ht0
      rw [if_pos (by norm_num), streamBit_eq]
      simp only [Nat.add_zero]
      rcases hbb : (buf (pos / 8)).testBit (pos % 8) <;>
        simp [hbb, show 0 < n + 1 by omega]
    · rw [if_neg ht, ih (pos + 1) (t - 1),
          show pos + 1 + (t - 1) = pos + t from by omega]
      by_cases h2 : t - 1 < n
      · simp [h2, show t < n + 1 by omega]
      · simp [h2, show ¬ t < n + 1 by omega]

/-- A fresh reader satisfies the representation invariant at position 0. -/
theorem RRep_init (buf : Nat → Nat) (cap : Nat) (hb : ∀ i, buf i < 256) :
    RRep buf cap 0 (BitReader.init buf cap) := by
  refine ⟨rfl, rfl, by simp [BitReader.init], by simp [BitReader.init], ?_⟩
  show WindowOk buf cap (BitReader.init buf cap).byte_offset
    (loadBytes buf 0 (min 8 cap) 0)
  refine ⟨loadBytes_lt hb (by norm_num) 0 (min 8 cap) (by omega), ?_⟩
  intro j hj
  show (loadBytes buf 0 (min 8 cap) 0).testBit j = _
  rw [testBit_loadBytes hb 0 0 (min 8 cap) j (by
    have : (BitReader.init buf cap).byte_offset = 0 := rfl
    omega)]
  rfl

/-- `detail::GetValue_` reads exactly the next `num_bits` stream bits,
advances the cursor by `num_bits`, and maintains the window invariant. -/
theorem GetValue_window_spec {buf : Nat → Nat} {cap bv : Nat} (hb : ∀ i, buf i < 256)
    {byo bo n sz : Nat} (hwin : WindowOk buf cap byo bv) (hbo : bo < 64)
    (hn1 : 1 ≤ n) (hn : n ≤ 32) (hnsz : n ≤ 8 * sz)
    (hsp : byo * 8 + bo + n ≤ 8 * cap) :
    (detail.GetValue_ n cap buf bo byo bv sz).1 = bitsAt buf (byo * 8 + bo) n ∧
    (detail.GetValue_ n cap buf bo byo bv sz).2.1 = (bo + n) % 64 ∧
    (detail.GetValue_ n cap buf bo byo bv sz).2.2.1 = byo + 8 * ((bo + n) / 64) ∧
    WindowOk buf cap (detail.GetValue_ n cap buf bo byo bv sz).2.2.1
      (detail.GetValue_ n cap buf bo byo bv sz).2.2.2 := by
  obtain ⟨hbv64, hbits⟩ := hwin
  unfold detail.GetValue_
  by_cases hcr : bo + n ≥ 64
  · rw [if_pos hcr]
    dsimp only
    have hcap8 : byo + 8 ≤ cap := by omega
    have hwin2 := reload_WindowOk hb hbv64 cap (byo + 8)
    have hW64 := hwin2.1
    have hWbits := hwin2.2
    have hTB : BitUtil.TrailingBits bv (bo + n) = bv := by
      unfold BitUtil.TrailingBits
      rw [if_neg (by omega), if_pos (by omega)]
    have hshr : bv >>> bo = bv / 2 ^ bo := Nat.shiftRight_eq_div_pow bv bo
    have hv0lt : bv / 2 ^ bo < 2 ^ (64 - bo) := by
      rw [Nat.div_lt_iff_lt_mul (by positivity)]
      calc bv < 2 ^ 64 := hbv64
        _ = 2 ^ (64 - bo) * 2 ^ bo := by rw [← pow_add]; congr 1; omega
    have hv0id : bv >>> bo % 2 ^ (8 * sz) = bv >>> bo := by
      rw [hshr]
      exact Nat.mod_eq_of_lt (lt_of_lt_of_le hv0lt
        (Nat.pow_le_pow_right (by norm_num) (by omega)))
    refine ⟨?_, by omega, by omega, hwin2⟩
    set W := if cap - (byo + 8) ≥ 8 then loadBytes buf (byo + 8) 8 bv
             else loadBytes buf (byo + 8) (cap - (byo + 8)) bv with hWdef
    have hTB2 : BitUtil.TrailingBits W (bo + n - 64) = W % 2 ^ (bo + n - 64) :=
      TrailingBits_eq_mod _ hW64
    have hmlt : W % 2 ^ (bo + n - 64) < 2 ^ (bo + n - 64) := Nat.mod_lt _ (by positivity)
    have hprod : W % 2 ^ (bo + n - 64) * 2 ^ (n - (bo + n - 64)) < 2 ^ n := by
      calc W % 2 ^ (bo + n - 64) * 2 ^ (n - (bo + n - 64))
          < 2 ^ (bo + n - 64) * 2 ^ (n - (bo + n - 64)) :=
            mul_lt_mul_of_pos_right hmlt (by positivity)
        _ = 2 ^ n := by rw [← pow_add]; congr 1; omega
    have hhi : BitUtil.TrailingBits W (bo + n - 64) <<< (n - (bo + n - 64)) % 2 ^ 64
          % 2 ^ (8 * sz)
        = W % 2 ^ (bo + n - 64) * 2 ^ (n - (bo + n - 64)) := by
      rw [hTB2, Nat.shiftLeft_eq,
          Nat.mod_eq_of_lt (lt_of_lt_of_le hprod
            (Nat.pow_le_pow_right (by norm_num) (by omega))),
          Nat.mod_eq_of_lt (lt_of_lt_of_le hprod
            (Nat.pow_le_pow_right (by norm_num) (by omega)))]
    have hv0b : bv >>> bo < 2 ^ (n - (bo + n - 64)) := by
      rw [hshr]
      exact lt_of_lt_of_le hv0lt (Nat.pow_le_pow_right (by norm_num) (by omega))
    have hor : bv >>> bo ||| W % 2 ^ (bo + n - 64) * 2 ^ (n - (bo + n - 64))
        = 2 ^ (n - (bo + n - 64)) * (W % 2 ^ (bo + n - 64)) + bv >>> bo := by
      rw [Nat.mul_comm (W % 2 ^ (bo + n - 64))]
      exact lor_two_pow_mul _ hv0b
    rw [hTB, hv0id, hhi, hor]
    apply Nat.eq_of_testBit_eq
    intro t
    rw [testBit_bitsAt, Nat.testBit_mul_pow_two_add _ hv0b]
    by_cases ht : t < n - (bo + n - 64)
    · rw [if_pos ht, Nat.testBit_shiftRight, hbits (bo + t) (by omega)]
      rw [show (byo * 8 + bo + t) / 8 = byo + (bo + t) / 8 from by omega,
          show (byo * 8 + bo + t) % 8 = (bo + t) % 8 from by omega]
      simp [show t < n by omega]
    · rw [if_neg ht, Nat.testBit_mod_two_pow]
      by_cases htn : t < n
      · have htk : t - (n - (bo + n - 64)) < bo + n - 64 := by omega
        rw [hWbits (t - (n - (bo + n - 64))) (by omega)]
        rw [show (byo * 8 + bo + t) / 8 = byo + 8 + (t - (n - (bo + n - 64))) / 8 from
              by omega,
            show (byo * 8 + bo + t) % 8 = (t - (n - (bo + n - 64))) % 8 from by omega]
        simp [htn, htk]
      · simp [show ¬ (t - (n - (bo + n - 64)) < bo + n - 64) from by omega, htn]
  · rw [if_neg hcr]
    dsimp only
    have hTB : BitUtil.TrailingBits bv (bo + n) = bv % 2 ^ (bo + n) :=
      TrailingBits_eq_mod _ hbv64
    refine ⟨?_, by omega, by omega, ⟨hbv64, hbits⟩⟩
    rw [hTB,
        show (bv % 2 ^ (bo + n)) >>> bo = bv % 2 ^ (bo + n) / 2 ^ bo from
          Nat.shiftRight_eq_div_pow _ _,
        mod_pow_div,
        Nat.mod_eq_of_lt (lt_of_lt_of_le (Nat.mod_lt _ (by positivity))
          (Nat.pow_le_pow_right (by norm_num) hnsz))]
    apply Nat.eq_of_testBit_eq
    intro t
    rw [testBit_bitsAt, Nat.testBit_mod_two_pow,
        show bv / 2 ^ bo = bv >>> bo from (Nat.shiftRight_eq_div_pow bv bo).symm,
        Nat.testBit_shiftRight]
    by_cases ht : t < n
    · rw [hbits (bo + t) (by omega)]
      rw [show (byo * 8 + bo + t) / 8 = byo + (bo + t) / 8 from by omega,
          show (byo * 8 + bo + t) % 8 = (bo + t) % 8 from by omega]
    · simp [ht]

theorem headLoop_one (n max : Nat) (buf : Nat → Nat) (sz bo byo bv : Nat)
    (h0 : bo ≠ 0) :
    BitReader.headLoop n max buf sz 1 bo byo bv
      = ([(detail.GetValue_ n max buf bo byo bv sz).1],
         (detail.GetValue_ n max buf bo byo bv sz).2.1,
         (detail.GetValue_ n max buf bo byo bv sz).2.2.1,
         (detail.GetValue_ n max buf bo byo bv sz).2.2.2) := by
  simp only [BitReader.headLoop, if_neg h0]

theorem headLoop_one_zero (n max : Nat) (buf : Nat → Nat) (sz byo bv : Nat) :
    BitReader.headLoop n max buf sz 1 0 byo bv = ([], 0, byo, bv) := by
  simp [BitReader.headLoop]

theorem tailLoop_one (n max : Nat) (buf : Nat → Nat) (sz bo byo bv : Nat) :
    BitReader.tailLoop n max buf sz 1 bo byo bv
      = ([(detail.GetValue_ n max buf bo byo bv sz).1],
         (detail.GetValue_ n max buf bo byo bv sz).2.1,
         (detail.GetValue_ n max buf bo byo bv sz).2.2.1,
         (detail.GetValue_ n max buf bo byo bv sz).2.2.2) := by
  simp only [BitReader.tailLoop]

theorem unpack32_small (buf : Nat → Nat) (byo count n : Nat) (h : count < 32) :
    internal.unpack32 buf byo count n = ([], 0) := by
  unfold internal.unpack32
  dsimp only
  rw [Nat.div_eq_of_lt h]
  simp

theorem packLoop_small (buf : Nat → Nat) (n sz byo rem : Nat) (h : rem < 32) :
    BitReader.packLoop buf n sz rem byo = ([], byo) := by
  rw [BitReader.packLoop]
  by_cases h0 : rem = 0
  · rw [dif_pos h0]
  · rw [dif_neg h0]
    dsimp only
    have h2 : (internal.unpack32 buf byo (min 1024 rem) n).2 = 0 := by
      unfold internal.unpack32
      dsimp only
      omega
    rw [dif_pos h2]

theorem tailLoop_zero (n max : Nat) (buf : Nat → Nat) (sz bo byo bv : Nat) :
    BitReader.tailLoop n max buf sz 0 bo byo bv = ([], bo, byo, bv) := by
  simp only [BitReader.tailLoop]

/-- `BitReader::GetValue` (a `GetBatch` of one) succeeds, returns the next
`n` stream bits, and re-establishes the representation invariant. -/
theorem GetValue_read {buf : Nat → Nat} {cap pos : Nat} {r : BitReader}
    (hb : ∀ i, buf i < 256) (hr : RRep buf cap pos r)
    (n sz : Nat) (hn1 : 1 ≤ n) (hn : n ≤ 32) (hnsz : n ≤ 8 * sz)
    (hsp : pos + n ≤ 8 * cap) :
    (r.GetValue n sz).1 = some (bitsAt buf pos n) ∧
    RRep buf cap (pos + n) (r.GetValue n sz).2 := by
  obtain ⟨hbuf, hmax, hbyo, hbo, hwin⟩ := hr
  obtain ⟨q, c, rfl, hclt⟩ : ∃ q c, pos = 64 * q + c ∧ c < 64 :=
    ⟨pos / 64, pos % 64, by omega, by omega⟩
  have hq : (64 * q + c) / 64 = q := by omega
  have hcq : (64 * q + c) % 64 = c := by omega
  rw [hq] at hbyo
  rw [hcq] at hbo
  rw [hbyo] at hwin
  unfold BitReader.GetValue BitReader.GetBatch
  dsimp only
  rw [hbuf, hmax, hbyo, hbo]
  rw [if_neg (show ¬ ((cap - 8 * q) * 8 - c < n * 1) from by omega)]
  by_cases hc0 : c = 0
  · subst hc0
    rw [headLoop_one_zero]
    dsimp only
    simp only [List.length_nil, Nat.sub_zero]
    have hP : (if sz = 4 then
          ((internal.unpack32 buf (8 * q) 1 n).1,
            8 * q + (internal.unpack32 buf (8 * q) 1 n).2 * n / 8)
          else BitReader.packLoop buf n sz 1 (8 * q)) = (([] : List Nat), 8 * q) := by
      by_cases hsz4 : sz = 4
      · rw [if_pos hsz4, unpack32_small buf (8 * q) 1 n (by norm_num)]
        simp
      · rw [if_neg hsz4]
        exact packLoop_small buf n sz (8 * q) 1 (by norm_num)
    rw [hP]
    dsimp only
    simp only [List.length_nil, Nat.sub_zero]
    rw [tailLoop_one]
    dsimp only
    have hwin2 := reload_WindowOk hb hwin.1 cap (8 * q)
    have hs := GetValue_window_spec hb hwin2 (show (0 : Nat) < 64 from by norm_num)
      hn1 hn hnsz (by omega)
    rw [if_pos trivial]
    simp only [List.nil_append, List.headI]
    refine ⟨?_, rfl, rfl, ?_, ?_, ?_⟩
    · rw [hs.1, show 8 * q * 8 + 0 = 64 * q + 0 from by ring]
    · dsimp only
      rw [hs.2.2.1]
      omega
    · dsimp only
      rw [hs.2.1]
      omega
    · dsimp only
      exact hs.2.2.2
  · rw [headLoop_one n cap buf sz c (8 * q) r.buffered_values hc0]
    dsimp only
    set s := detail.GetValue_ n cap buf c (8 * q) r.buffered_values sz with hsdef
    simp only [List.length_cons, List.length_nil, Nat.zero_add, Nat.sub_self]
    have hP : (if sz = 4 then
          ((internal.unpack32 buf s.2.2.1 0 n).1,
            s.2.2.1 + (internal.unpack32 buf s.2.2.1 0 n).2 * n / 8)
          else BitReader.packLoop buf n sz 0 s.2.2.1) = (([] : List Nat), s.2.2.1) := by
      by_cases hsz4 : sz = 4
      · rw [if_pos hsz4, unpack32_small buf s.2.2.1 0 n (by norm_num)]
        simp
      · rw [if_neg hsz4]
        exact packLoop_small buf n sz s.2.2.1 0 (by norm_num)
    rw [hP]
    dsimp only
    simp only [List.length_nil, Nat.sub_zero, Nat.sub_self]
    rw [tailLoop_zero]
    dsimp only
    have hs := GetValue_window_spec hb hwin hclt hn1 hn hnsz (by omega)
    rw [← hsdef] at hs
    have hwin2 := reload_WindowOk hb hs.2.2.2.1 cap s.2.2.1
    rw [if_pos trivial]
    simp only [List.append_nil, List.headI]
    refine ⟨?_, rfl, rfl, ?_, ?_, ?_⟩
    · rw [hs.1, show 8 * q * 8 + c = 64 * q + c from by ring]
    · dsimp only
      rw [hs.2.2.1]
      omega
    · dsimp only
      rw [hs.2.1]
      omega
    · dsimp only
      exact hwin2

theorem readAll_spec {buf : Nat → Nat} {cap sz : Nat} (hb : ∀ i, buf i < 256) :
    ∀ (ps : List (Nat × Nat)) (pos : Nat) (r : BitReader), RRep buf cap pos r →
      (∀ p ∈ ps, 1 ≤ p.2 ∧ p.2 ≤ 32 ∧ p.2 ≤ 8 * sz) →
      pos + sumBits ps ≤ 8 * cap →
      (readAll r sz (ps.map Prod.snd)).1 = expectedReads buf pos (ps.map Prod.snd) := by
  intro ps
  induction ps with
  | nil => intro pos r _ _ _; rfl
  | cons p ps ih =>
    intro pos r hr hps hsp
    simp only [sumBits] at hsp
    have hp := hps p (by simp)
    have hg := GetValue_read hb hr p.2 sz hp.1 hp.2.1 hp.2.2 (by omega)
    simp only [List.map_cons, readAll, expectedReads]
    rw [hg.1, ih (pos + p.2) (r.GetValue p.2 sz).2 hg.2
      (fun u hu => hps u (by simp [hu])) (by omega)]

/-- On a buffer whose first `M` bytes are the bytes of `S`, reading stream
bits is reading bits of `S`. -/
theorem bitsAt_bytes {buf : Nat → Nat} {S M : Nat}
    (hbytes : ∀ i, i < M → buf i = S / 2 ^ (8 * i) % 256) :
    ∀ (n pos : Nat), pos + n ≤ 8 * M → bitsAt buf pos n = S / 2 ^ pos % 2 ^ n := by
  intro n pos hsp
  apply Nat.eq_of_testBit_eq
  intro t
  rw [testBit_bitsAt, Nat.testBit_mod_two_pow,
      show S / 2 ^ pos = S >>> pos from by rw [Nat.shiftRight_eq_div_pow],
      Nat.testBit_shiftRight]
  by_cases ht : t < n
  · have hi : (pos + t) / 8 < M := by omega
    rw [hbytes _ hi, byte_testBit _ _ _ (by omega),
        show 8 * ((pos + t) / 8) + (pos + t) % 8 = pos + t from by omega]
  · simp [ht]

/-- Extracting the values of a packed stream one width at a time. -/
theorem expectedReads_values {buf : Nat → Nat} {S M : Nat}
    (hbit : ∀ n pos, pos + n ≤ 8 * M → bitsAt buf pos n = S / 2 ^ pos % 2 ^ n) :
    ∀ (ps : List (Nat × Nat)) (pos : Nat),
      (∀ p ∈ ps, p.1 < 2 ^ p.2) →
      pos + sumBits ps ≤ 8 * M →
      S / 2 ^ pos % 2 ^ sumBits ps = streamVal ps →
      expectedReads buf pos (ps.map Prod.snd) = ps.map (fun p => some p.1) := by
  intro ps
  induction ps with
  | nil => intro pos _ _ _; rfl
  | cons p ps ih =>
    intro pos hps hsp hSv
    simp only [sumBits, streamVal] at hsp hSv
    have hp1 : p.1 < 2 ^ p.2 := hps p (by simp)
    simp only [List.map_cons, expectedReads]
    have hhead : bitsAt buf pos p.2 = p.1 := by
      rw [hbit p.2 pos (by omega)]
      have h2 : S / 2 ^ pos % 2 ^ (p.2 + sumBits ps) % 2 ^ p.2 = S / 2 ^ pos % 2 ^ p.2 :=
        Nat.mod_mod_of_dvd _ (pow_dvd_pow 2 (by omega))
      rw [hSv, Nat.add_mul_mod_self_left, Nat.mod_eq_of_lt hp1] at h2
      omega
    have htail : S / 2 ^ (pos + p.2) % 2 ^ sumBits ps = streamVal ps := by
      have h4 : S / 2 ^ (pos + p.2) = S / 2 ^ pos / 2 ^ p.2 := by
        rw [pow_add, Nat.div_div_eq_div_mul]
      have h5 := mod_pow_div (S / 2 ^ pos) p.2 (sumBits ps)
      rw [hSv] at h5
      have h6 : (p.1 + 2 ^ p.2 * streamVal ps) / 2 ^ p.2 = streamVal ps := by
        rw [Nat.add_mul_div_left _ _ (by positivity), Nat.div_eq_of_lt hp1, Nat.zero_add]
      rw [h4, ← h5, h6]
    rw [hhead, ih (pos + p.2) (fun u hu => hps u (by simp [hu])) (by omega) htail]

/-- C1: for every finite sequence of pairs `(v_i, n_i)` with `n_i ∈ [1, 32]`
and `v_i < 2 ^ n_i`, writing the sequence with `BitWriter::PutValue` into a
buffer of sufficient capacity succeeds, after the writes `bytes_written()`
equals `⌈(Σ n_i) / 8⌉`, and (after `Flush(false)`) reading the same widths
back with `BitReader::GetValue`/`GetBatch` yields exactly the original
values. -/
theorem C1_bitstream_roundtrip (ps : List (Nat × Nat)) (buf0 : Nat → Nat)
    (cap sz : Nat)
    (hps : ∀ p ∈ ps, 1 ≤ p.2 ∧ p.2 ≤ 32 ∧ p.1 < 2 ^ p.2)
    (hsz : ∀ p ∈ ps, p.2 ≤ 8 * sz)
    (hbuf0 : ∀ i, buf0 i < 256)
    (hcap : sumBits ps ≤ cap * 8) :
    (writeAll (BitWriter.init buf0 cap) ps).1 = true ∧
    (writeAll (BitWriter.init buf0 cap) ps).2.bytes_written = (sumBits ps + 7) / 8 ∧
    (readAll (BitReader.init
        (((writeAll (BitWriter.init buf0 cap) ps).2.Flush false).buffer) cap)
        sz (ps.map Prod.snd)).1
      = ps.map (fun p => some p.1) := by
  have hW := writeAll_spec buf0 cap ps 0 0 (BitWriter.init buf0 cap)
    (WRep_init buf0 cap) (by norm_num) hps (by omega)
  simp only [Nat.zero_add, pow_zero, Nat.one_mul] at hW
  have hS : streamVal ps < 2 ^ sumBits ps := streamVal_lt ps (fun p hp => (hps p hp).2.2)
  have hF := Flush_false_bytes hW.2
  have hb : ∀ i, ((writeAll (BitWriter.init buf0 cap) ps).2.Flush false).buffer i < 256 := by
    intro i
    by_cases hi : i < (sumBits ps + 7) / 8
    · rw [hF.1 i hi]
      exact Nat.mod_lt _ (by norm_num)
    · rw [hF.2.1 i (by omega)]
      exact hbuf0 i
  have hread := readAll_spec hb ps 0
    (BitReader.init (((writeAll (BitWriter.init buf0 cap) ps).2.Flush false).buffer) cap)
    (RRep_init _ cap hb)
    (fun p hp => ⟨(hps p hp).1, (hps p hp).2.1, hsz p hp⟩) (by omega)
  have hvals := expectedReads_values (bitsAt_bytes hF.1) ps 0
    (fun p hp => (hps p hp).2.2) (by omega)
    (by rw [pow_zero, Nat.div_one]
        exact Nat.mod_eq_of_lt hS)
  exact ⟨hW.1, hF.2.2, by rw [hread, hvals]⟩

/-- Witness for C1: the two 3-bit values 5 and 7 written into a one-byte
buffer and read back through a 4-byte read type. -/
theorem C1_bitstream_roundtrip_witness :
    ((∀ p ∈ [((5 : Nat), (3 : Nat)), (7, 3)], 1 ≤ p.2 ∧ p.2 ≤ 32 ∧ p.1 < 2 ^ p.2) ∧
     (∀ p ∈ [((5 : Nat), (3 : Nat)), (7, 3)], p.2 ≤ 8 * 4) ∧
     (∀ i : Nat, (fun _ : Nat => (0 : Nat)) i < 256) ∧
     sumBits [((5 : Nat), (3 : Nat)), (7, 3)] ≤ 1 * 8) ∧
    ((writeAll (BitWriter.init (fun _ => 0) 1) [((5 : Nat), (3 : Nat)), (7, 3)]).1 = true ∧
     (writeAll (BitWriter.init (fun _ => 0) 1)
         [((5 : Nat), (3 : Nat)), (7, 3)]).2.bytes_written
       = (sumBits [((5 : Nat), (3 : Nat)), (7, 3)] + 7) / 8 ∧
     (readAll (BitReader.init
         (((writeAll (BitWriter.init (fun _ => 0) 1)
             [((5 : Nat), (3 : Nat)), (7, 3)]).2.Flush false).buffer) 1)
         4 ([((5 : Nat), (3 : Nat)), (7, 3)].map Prod.snd)).1
       = [((5 : Nat), (3 : Nat)), (7, 3)].map (fun p => some p.1)) :=
  ⟨⟨by decide, by decide, fun _ => by norm_num, by decide⟩,
   C1_bitstream_roundtrip [((5 : Nat), (3 : Nat)), (7, 3)] (fun _ => 0) 1 4
     (by decide) (by decide) (fun _ => by norm_num) (by decide)⟩

end BitUtil

namespace writer_schema

/-- C7 (amended): for every accepted schema tree, `write_schema` returns
the ordered flat element list and, leaf by leaf in document order, the
leaf's *path* — exactly the first components of the traversal's leaf
descriptors; the computed `max_rep_level`/`max_def_level` are not part of
the declared result type.  The second conjunct checks scenario S6 of the
spec: `struct("rec", required, [list("xs", optional, primitive("x",
required, INT32))])` has the single leaf `["rec","xs","list","element"]`
with `max_rep_level = 1` and `max_def_level = 2`. -/
theorem C7_write_schema_amended :
    (∀ (root : schema) (r : write_schema_result), write_schema root = Except.ok r →
      ∃ ds, leaf_descriptors root = Except.ok ds ∧ r.leaf_paths = ds.map Prod.fst) ∧
    leaf_descriptors ⟨[node.strct "rec" false [node.list "xs" true
        (node.primitive "x" false PhysicalType.INT32 none 0 0)]]⟩
      = Except.ok [(["rec", "xs", "list", "element"], 1, 2)] := by
  constructor
  · intro root r h
    unfold write_schema at h
    unfold leaf_descriptors
    cases hf : flattenFields 0 0 [] root.fields with
    | error e =>
      rw [hf] at h
      exact absurd h (by simp)
    | ok sub =>
      rw [hf] at h
      refine ⟨sub.2, rfl, ?_⟩
      injection h with h2
      subst h2
      rfl
  · simp [leaf_descriptors, flattenFields, flattenNode, namesNodup, nodeName]

/-- Witness for C7: applying the amended theorem to the S6 schema. -/
theorem C7_write_schema_amended_witness :
    (write_schema ⟨[node.strct "rec" false [node.list "xs" true
          (node.primitive "x" false PhysicalType.INT32 none 0 0)]]⟩
        = Except.ok ⟨[⟨"rec", 0, some 1, none, none, none⟩,
                      ⟨"xs", 1, some 1, some 1, none, none⟩,
                      ⟨"list", 2, some 1, none, none, none⟩,
                      ⟨"element", 0, none, none, some PhysicalType.INT32, none⟩],
                     [["rec", "xs", "list", "element"]]⟩) ∧
    ∃ ds, leaf_descriptors ⟨[node.strct "rec" false [node.list "xs" true
          (node.primitive "x" false PhysicalType.INT32 none 0 0)]]⟩
        = Except.ok ds ∧
      [["rec", "xs", "list", "element"]] = ds.map Prod.fst :=
  ⟨by simp [write_schema, flattenFields, flattenNode, namesNodup, nodeName],
   C7_write_schema_amended.1
     ⟨[node.strct "rec" false [node.list "xs" true
         (node.primitive "x" false PhysicalType.INT32 none 0 0)]]⟩
     ⟨[⟨"rec", 0, some 1, none, none, none⟩,
       ⟨"xs", 1, some 1, some 1, none, none⟩,
       ⟨"list", 2, some 1, none, none, none⟩,
       ⟨"element", 0, none, none, some PhysicalType.INT32, none⟩],
      [["rec", "xs", "list", "element"]]⟩
     (by simp [write_schema, flattenFields, flattenNode, namesNodup, nodeName])⟩

/-- C7 counterexample: an optional and a required primitive named "x" give
leaves with different `max_def_level` (1 vs 0 by the level rules), yet the
leaf entries of `write_schema`\'s result are the identical path `["x"]`:
`write_schema_result` (`writer_schema.hh` lines 67-72) has no field that
could carry the per-leaf max levels the claim describes. -/
theorem C7_counterexample_no_levels_in_result :
    write_schema ⟨[node.primitive "x" true PhysicalType.INT32 none 0 0]⟩
        = Except.ok ⟨[⟨"x", 1, none, none, some PhysicalType.INT32, none⟩], [["x"]]⟩ ∧
    write_schema ⟨[node.primitive "x" false PhysicalType.INT32 none 0 0]⟩
        = Except.ok ⟨[⟨"x", 0, none, none, some PhysicalType.INT32, none⟩], [["x"]]⟩ ∧
    leaf_descriptors ⟨[node.primitive "x" true PhysicalType.INT32 none 0 0]⟩
        = Except.ok [(["x"], 0, 1)] ∧
    leaf_descriptors ⟨[node.primitive "x" false PhysicalType.INT32 none 0 0]⟩
        = Except.ok [(["x"], 0, 0)] := by
  refine ⟨?_, ?_, ?_, ?_⟩ <;>
    simp [write_schema, leaf_descriptors, flattenFields, flattenNode]

end writer_schema
